import Mathlib

/-!
# Batched CSV reader (`csv/csv.go`)

A shallow embedding of the batched reader `CommonCSV`, of its caller
`handleUpdateCSV` (`controller.go`) and of the parts of the Go standard library
(`encoding/csv`, `encoding/json`) on which they rest, followed by theorems
about `NewCommonCSV`, `ParseHeaders`, `ReadNextBatch`, `ParseNextBatch`,
`Records.ToMaps`, `IsEOF`, `InitializeS3CSVReader` and the loop of the caller.

Conventions.
* A Go slice that may be `nil` is an `Option (List _)`; `none` is `nil`.
* A Go call that may panic (nil dereference, index out of range) returns an
  `Option`; `none` is the panic.
* Several Go results `(a, b, err)` are a tuple in the same order, the error
  being `Option Error` with `none` for `nil`.
* Output written with `fmt.Println` is not modelled.
* Slices are values, except in the namespace `Shared`, which repeats the
  reading methods over a heap of backing arrays for a row parser that may have
  `ReuseRecord` set.
-/

namespace CsvParser

/-! ## The row parser of `encoding/csv` -/

/-- One raw record as the lexer of `encoding/csv` finds it in the input: either
a well-formed record, which always has at least one field, or a record with a
quoting error, of which `got` are the fields completed before the error. -/
inductive RawRow where
  | ok (first : String) (more : List String)
  | bad (got : List String)
deriving DecidableEq, Repr

/-- The fields the lexer hands back for a raw record. -/
def RawRow.record : RawRow → List String
  | .ok first more => first :: more
  | .bad got => got

/-- Whether the raw record is free of quoting errors. -/
def RawRow.isOk : RawRow → Bool
  | .ok _ _ => true
  | .bad _ => false

/-- Errors of `csv.Reader.Read`: `io.EOF`, a `*csv.ParseError` for bad quoting
(`ErrBareQuote`, `ErrQuote`), and a `*csv.ParseError` for `ErrFieldCount`. -/
inductive ReadError where
  | EOF
  | malformed
  | fieldCount
deriving DecidableEq, Repr

/-- State of a `*csv.Reader` over an in-memory buffer: the exported field
`FieldsPerRecord` and the raw records not yet read.  The reader has
`ReuseRecord` false, as `csv.NewReader` leaves it, so every record it returns
is a slice of its own; `Shared.Reader` below has the flag. -/
structure CsvReader where
  FieldsPerRecord : Int
  pending : List RawRow
deriving DecidableEq, Repr

/-- Model of `(*csv.Reader).Read`.  At the end of input it returns `io.EOF`.
Otherwise it consumes one raw record and then checks or fixes the expected
number of fields exactly as the library does: with a positive
`FieldsPerRecord` a well-formed record of another length is `ErrFieldCount`;
with `FieldsPerRecord = 0` the field is set to the length of the record just
read (also when that record carries a quoting error); a negative value
disables the check. -/
def CsvReader.Read (r : CsvReader) : CsvReader × List String × Option ReadError :=
  match r.pending with
  | [] => (r, [], some .EOF)
  | row :: rest =>
    let dst := row.record
    let err : Option ReadError := if row.isOk then none else some .malformed
    if 0 < r.FieldsPerRecord then
      if (dst.length : Int) ≠ r.FieldsPerRecord ∧ err = none then
        ({ r with pending := rest }, dst, some .fieldCount)
      else
        ({ r with pending := rest }, dst, err)
    else if r.FieldsPerRecord = 0 then
      ({ FieldsPerRecord := dst.length, pending := rest }, dst, err)
    else
      ({ r with pending := rest }, dst, err)

/-- Modes of the record lexer. -/
inductive LexMode where
  | lineStart
  | fieldStart
  | bare
  | quoted
  | quoteSeen
  | skipLine
deriving DecidableEq, Repr

/-- The double quote character. -/
def dquote : Char := Char.ofNat 34

/-- Line-end normalisation of `readLine`: a carriage return directly before a
line feed is dropped, and so is a carriage return that ends the input. -/
def normNL : List Char → List Char
  | [] => []
  | [c] => if c = '\r' then [] else [c]
  | c :: d :: rest =>
    if c = '\r' ∧ d = '\n' then '\n' :: normNL rest else c :: normNL (d :: rest)

/-- A well-formed record made of the completed fields and the last one. -/
def mkOk (fields : List String) (cur : List Char) : RawRow :=
  match fields with
  | [] => .ok (String.mk cur) []
  | f :: fs => .ok f (fs ++ [String.mk cur])

/-- Record lexer of `encoding/csv` (`readRecord`) with the settings
`csv.NewReader` gives: comma `,`, no comment character, `LazyQuotes` and
`TrimLeadingSpace` off.  Empty lines are skipped; a quote inside a non-quoted
field and a quote inside a quoted field that is followed by neither a quote, a
comma nor the line end are errors, after which the rest of the line is dropped;
a quoted field still open at the end of input is an error.  `fields` are the
completed fields of the current record and `cur` the field under way. -/
def lexRows : LexMode → List String → List Char → List Char → List RawRow
  | .lineStart, _, _, [] => []
  | .fieldStart, fields, _, [] => [mkOk fields []]
  | .bare, fields, cur, [] => [mkOk fields cur]
  | .quoted, fields, _, [] => [.bad fields]
  | .quoteSeen, fields, cur, [] => [mkOk fields cur]
  | .skipLine, _, _, [] => []
  | .lineStart, _, _, c :: rest =>
    if c = '\n' then lexRows .lineStart [] [] rest
    else if c = dquote then lexRows .quoted [] [] rest
    else if c = ',' then lexRows .fieldStart [""] [] rest
    else lexRows .bare [] [c] rest
  | .fieldStart, fields, _, c :: rest =>
    if c = '\n' then mkOk fields [] :: lexRows .lineStart [] [] rest
    else if c = dquote then lexRows .quoted fields [] rest
    else if c = ',' then lexRows .fieldStart (fields ++ [""]) [] rest
    else lexRows .bare fields [c] rest
  | .bare, fields, cur, c :: rest =>
    if c = '\n' then mkOk fields cur :: lexRows .lineStart [] [] rest
    else if c = ',' then lexRows .fieldStart (fields ++ [String.mk cur]) [] rest
    else if c = dquote then .bad fields :: lexRows .skipLine [] [] rest
    else lexRows .bare fields (cur ++ [c]) rest
  | .quoted, fields, cur, c :: rest =>
    if c = dquote then lexRows .quoteSeen fields cur rest
    else lexRows .quoted fields (cur ++ [c]) rest
  | .quoteSeen, fields, cur, c :: rest =>
    if c = dquote then lexRows .quoted fields (cur ++ [dquote]) rest
    else if c = ',' then lexRows .fieldStart (fields ++ [String.mk cur]) [] rest
    else if c = '\n' then mkOk fields cur :: lexRows .lineStart [] [] rest
    else .bad fields :: lexRows .skipLine [] [] rest
  | .skipLine, _, _, c :: rest =>
    if c = '\n' then lexRows .lineStart [] [] rest
    else lexRows .skipLine [] [] rest

/-- The raw records of a whole buffer. -/
def lexCSV (data : String) : List RawRow :=
  lexRows .lineStart [] [] (normNL data.toList)

/-- Model of `csv.NewReader(bytes.NewReader(data))`: a cursor at the start of
the buffer with `FieldsPerRecord = 0`. -/
def NewReader (data : String) : CsvReader :=
  { FieldsPerRecord := 0, pending := lexCSV data }

/-! ## Data model of `csv/csv.go` -/

/-- Go `Headers`, a `[]string` that may be nil. -/
abbrev Headers := Option (List String)

/-- Go `Records`, a `[][]string` that may be nil. -/
abbrev Records := Option (List (List String))

/-- The rows of a batch; the nil batch has none. -/
def Records.rows (records : Records) : List (List String) :=
  records.getD []

/-- Go `append(records, record)`: the result is never nil. -/
def Records.append (records : Records) (record : List String) : Records :=
  some (Records.rows records ++ [record])

/-- Go `map[string]string`, kept as an association list with one entry per key
(in order of first insertion; the order carries no meaning). -/
abbrev GoMap := List (String × String)

/-- Go `m[key] = value`: overwrites the entry of `key` or adds one. -/
def GoMap.set : GoMap → String → String → GoMap
  | [], key, value => [(key, value)]
  | (k, v) :: rest, key, value =>
    if k = key then (key, value) :: rest else (k, v) :: GoMap.set rest key value

/-- Errors built in `csv.go`, by their message, and the error of
`json.Unmarshal`. -/
inductive Error where
  | nilPointerReference
  | readingCSVRecord (cause : ReadError)
  | readingCSVHeaders (cause : ReadError)
  | readingObjectData
  | json (message : String)
deriving DecidableEq, Repr

structure FileInfo where
  ObjectKey : String
  Bucket : String
deriving DecidableEq, Repr

structure CommonCSV where
  Reader : Option CsvReader
  Headers : Headers
  batchSize : Int
  eof : Bool
  rawData : Option String
  fileInfo : FileInfo
deriving DecidableEq, Repr

structure Options where
  Headers : Headers
  BatchSize : Int
  CSVReader : Option CsvReader
  fileInfo : FileInfo
deriving DecidableEq, Repr

def defaultBatchSize : Int := 100

abbrev OptionFunc := Options → Options

def WithHeaders (headers : Headers) : OptionFunc :=
  fun o => { o with Headers := headers }

def WithBatchSize (batchSize : Int) : OptionFunc :=
  fun o => { o with BatchSize := batchSize }

def WithCSVReader (reader : Option CsvReader) : OptionFunc :=
  fun o => { o with CSVReader := reader }

def WithFileInfo (objectKey bucket : String) : OptionFunc :=
  fun o => { o with fileInfo := { ObjectKey := objectKey, Bucket := bucket } }

/-- Constructor `NewCommonCSV`.  With headers supplied, `csvReader.FieldsPerRecord` is
assigned through `opts.CSVReader`, which panics when no reader was supplied.
The returned error is always nil. -/
def NewCommonCSV (options : List OptionFunc) : Option (CommonCSV × Option Error) :=
  let opts := options.foldl (fun o option => option o)
    { Headers := none, BatchSize := defaultBatchSize, CSVReader := none,
      fileInfo := { ObjectKey := "", Bucket := "" } }
  match opts.Headers with
  | some hs =>
    match opts.CSVReader with
    | none => none
    | some csvReader =>
      some ({ Reader := some { csvReader with FieldsPerRecord := hs.length },
              Headers := opts.Headers, batchSize := opts.BatchSize, eof := false,
              rawData := none, fileInfo := opts.fileInfo }, none)
  | none =>
    some ({ Reader := opts.CSVReader, Headers := opts.Headers, batchSize := opts.BatchSize,
            eof := false, rawData := none, fileInfo := opts.fileInfo }, none)

/-! ## Methods of `*CommonCSV` on a non-nil receiver

The nil guards that open the methods are in the section on nil receivers
below. -/

/-- Method `SetEOF` -/
def CommonCSV.SetEOF (c : CommonCSV) : CommonCSV :=
  { c with eof := true }

/-- Method `IsEOF` -/
def CommonCSV.IsEOF (c : CommonCSV) : Bool :=
  c.eof

/-- Method `ParseHeaders`: returns the stored headers when there are some, otherwise
reads one record and stores it.  Panics when no row parser is bound. -/
def CommonCSV.ParseHeaders (c : CommonCSV) :
    Option (CommonCSV × CsvParser.Headers × Option Error) :=
  match c.Headers with
  | some hs => some (c, some hs, none)
  | none =>
    match c.Reader with
    | none => none
    | some r =>
      let res := r.Read
      match res.2.2 with
      | some err => some ({ c with Reader := some res.1 }, none, some (.readingCSVHeaders err))
      | none =>
        some ({ c with Reader := some res.1, Headers := some res.2.1 }, some res.2.1, none)

/-- Method `GetHeaders` -/
def CommonCSV.GetHeaders (c : CommonCSV) :
    Option (CommonCSV × CsvParser.Headers × Option Error) :=
  match c.Headers with
  | none => c.ParseHeaders
  | some hs => some (c, some hs, none)

/-- The loop `for i := 0; i < batchSize; i++` of `ReadNextBatch`, with `n` the
number of iterations still to run. -/
def CommonCSV.readLoop : Nat → CommonCSV → Records → Option (CommonCSV × Records × Option Error)
  | 0, c, records => some (c, records, none)
  | n + 1, c, records =>
    match c.Reader with
    | none => none
    | some r =>
      let res := r.Read
      if res.2.2 = some .EOF then
        some (CommonCSV.SetEOF { c with Reader := some res.1 }, records, none)
      else
        match res.2.2 with
        | some err => some ({ c with Reader := some res.1 }, none, some (.readingCSVRecord err))
        | none => CommonCSV.readLoop n { c with Reader := some res.1 } (Records.append records res.2.1)

/-- The statement `if commonCSV.Headers == nil { commonCSV.ParseHeaders() }` of
`ReadNextBatch`: both results of `ParseHeaders` are dropped. -/
def CommonCSV.lazyHeaders (c : CommonCSV) : Option CommonCSV :=
  match c.Headers with
  | none => c.ParseHeaders.map (fun res => res.1)
  | some _ => some c

/-- Method `ReadNextBatch` -/
def CommonCSV.ReadNextBatch (c : CommonCSV) : Option (CommonCSV × Records × Option Error) :=
  match c.lazyHeaders with
  | none => none
  | some c1 => CommonCSV.readLoop c1.batchSize.toNat c1 none

/-- The inner loop of `ToMaps` over one record: `keyValueMap[headerValue] =
record[i]` for the headers from index `i` on.  Panics when `record` has no
field `i`. -/
def fillMap (record : List String) : List String → Nat → GoMap → Option GoMap
  | [], _, keyValueMap => some keyValueMap
  | headerValue :: hs, i, keyValueMap =>
    match record[i]? with
    | none => none
    | some v => fillMap record hs (i + 1) (GoMap.set keyValueMap headerValue v)

/-- The outer loop of `ToMaps`. -/
def toMapsLoop (headers : List String) : List (List String) → List GoMap → Option (List GoMap)
  | [], keyValueMaps => some keyValueMaps
  | record :: rest, keyValueMaps =>
    match fillMap record headers 0 [] with
    | none => none
    | some keyValueMap => toMapsLoop headers rest (keyValueMaps ++ [keyValueMap])

/-- Method `Records.ToMaps`.  The result slice is nil exactly when it is empty. -/
def Records.ToMaps (records : Records) (headers : Headers) : Option (List GoMap) :=
  toMapsLoop (headers.getD []) (Records.rows records) []

/-- The caller's target `data interface{}` of type `τ`: `jsonUnmarshal maps
data` is the effect of `json.Unmarshal(jsonData, data)` for `jsonData` the
encoding of `maps`, giving the new target and the error.  Encoding a
`[]map[string]string` with `json.Marshal` cannot fail. -/
structure Target (τ : Type) where
  jsonUnmarshal : List GoMap → τ → τ × Option String

/-- Method `Records.Unmarshal` -/
def Records.Unmarshal {τ : Type} (tgt : Target τ) (records : Records) (headers : Headers)
    (data : τ) : Option (τ × Option Error) :=
  match records with
  | none => some (data, some .nilPointerReference)
  | some _ =>
    match Records.ToMaps records headers with
    | none => none
    | some recordMap =>
      let res := tgt.jsonUnmarshal recordMap data
      match res.2 with
      | some message => some (res.1, some (.json message))
      | none => some (res.1, none)

/-- Method `ParseNextBatch` -/
def CommonCSV.ParseNextBatch {τ : Type} (tgt : Target τ) (c : CommonCSV) (data : τ) :
    Option (CommonCSV × τ × Option Error) :=
  match c.ParseHeaders with
  | none => none
  | some (c1, headers, err) =>
    match err with
    | some e => some (c1, data, some e)
    | none =>
      match c1.ReadNextBatch with
      | none => none
      | some (c2, records, err) =>
        match err with
        | some e => some (c2, data, some e)
        | none =>
          match Records.Unmarshal tgt records headers data with
          | none => none
          | some (data2, err) => some (c2, data2, err)

/-- Method `FileFromLocal`: `file` is what `os.ReadFile("orders_update.csv")` finds,
`none` when reading fails. -/
def CommonCSV.FileFromLocal (file : Option String) (c : CommonCSV) :
    CommonCSV × Option String × Option Error :=
  match file with
  | none => (c, none, some .readingObjectData)
  | some objectData => ({ c with rawData := some objectData }, some objectData, none)

/-- Method `InitializeS3CSVReader` -/
def CommonCSV.InitializeS3CSVReader (file : Option String) (c : CommonCSV) :
    CommonCSV × Option Error :=
  let c1 : CommonCSV :=
    match c.rawData with
    | some raw => { c with Reader := some (NewReader raw) }
    | none => c
  let res := c1.FileFromLocal file
  match res.2.2 with
  | some err => (res.1, some err)
  | none => ({ res.1 with Reader := some (NewReader (res.2.1.getD "")) }, none)

/-! ## Methods on a receiver that may be nil -/

namespace Receiver

/-- Method `ReadNextBatch` with its nil guard. -/
def ReadNextBatch (p : Option CommonCSV) : Option (Option CommonCSV × Records × Option Error) :=
  match p with
  | none => some (none, none, none)
  | some c => (c.ReadNextBatch).map (fun res => (some res.1, res.2))

/-- Method `SetEOF` with its nil guard. -/
def SetEOF (p : Option CommonCSV) : Option CommonCSV :=
  p.map CommonCSV.SetEOF

/-- Method `IsEOF` with its nil guard. -/
def IsEOF (p : Option CommonCSV) : Bool :=
  match p with
  | none => true
  | some c => c.IsEOF

/-- Method `ParseHeaders` with its nil guard. -/
def ParseHeaders (p : Option CommonCSV) : Option (Option CommonCSV × Headers × Option Error) :=
  match p with
  | none => some (none, none, none)
  | some c => (c.ParseHeaders).map (fun res => (some res.1, res.2))

/-- Method `GetHeaders`, which has no nil guard. -/
def GetHeaders (p : Option CommonCSV) : Option (Option CommonCSV × Headers × Option Error) :=
  match p with
  | none => none
  | some c => (c.GetHeaders).map (fun res => (some res.1, res.2))

/-- Method `ParseNextBatch` with its nil guard. -/
def ParseNextBatch {τ : Type} (tgt : Target τ) (p : Option CommonCSV) (data : τ) :
    Option (Option CommonCSV × τ × Option Error) :=
  match p with
  | none => some (none, data, some .nilPointerReference)
  | some c => (c.ParseNextBatch tgt data).map (fun res => (some res.1, res.2))

/-- Method `InitializeS3CSVReader` with its nil guard. -/
def InitializeS3CSVReader (file : Option String) (p : Option CommonCSV) :
    Option CommonCSV × Option Error :=
  match p with
  | none => (none, some .nilPointerReference)
  | some c => ((c.InitializeS3CSVReader file).1, (c.InitializeS3CSVReader file).2)

end Receiver

/-! ## Callers -/

/-- The target `var req interface{}`: decoding replaces it by the decoded list
of objects (nil for the JSON `null` that encodes the nil slice) and cannot
fail. -/
def anyTarget : Target (List GoMap) :=
  { jsonUnmarshal := fun maps _ => (maps, none) }

/-- The loop `for { if IsEOF() { break }; ReadNextBatch() }`, run for at most
`fuel` tests of `IsEOF`; it collects the batches in call order and stops at the
first call that returns an error or panics. -/
def readAllBatches : Nat → CommonCSV → Option (CommonCSV × List Records)
  | 0, _ => none
  | fuel + 1, c =>
    if c.IsEOF then some (c, [])
    else
      match c.ReadNextBatch with
      | some (c1, records, none) =>
        match readAllBatches fuel c1 with
        | some (c2, batches) => some (c2, records :: batches)
        | none => none
      | _ => none

/-- The reader after `calls` successive `ParseNextBatch` calls, each into a new
target `data`, whatever error they return; `none` if one panics. -/
def afterParseCalls {τ : Type} (tgt : Target τ) (data : τ) : Nat → CommonCSV → Option CommonCSV
  | 0, c => some c
  | calls + 1, c =>
    match c.ParseNextBatch tgt data with
    | none => none
    | some (c1, _, _) => afterParseCalls tgt data calls c1

/-- The reader that `NewCommonCSV(WithBatchSize(b))` followed by a successful
`InitializeS3CSVReader` over the file contents `file` gives. -/
def freshReader (b : Int) (file : String) : CommonCSV :=
  { Reader := some (NewReader file), Headers := none, batchSize := b, eof := false,
    rawData := some file, fileInfo := { ObjectKey := "", Bucket := "" } }

/-- The source of the two-row scenario. -/
def sampleCSV : String := "id,name\n1,Alice\n2,Bob\n"

/-- The reader over the two-row source after the header and `rows` data rows
were read, with end-of-data flag `eof`. -/
def sampleReaderAt (b : Int) (rows : Nat) (eof : Bool) : CommonCSV :=
  { Reader := some ⟨2, ([.ok "1" ["Alice"], .ok "2" ["Bob"]] : List RawRow).drop rows⟩,
    Headers := some ["id", "name"], batchSize := b, eof := eof,
    rawData := some sampleCSV, fileInfo := { ObjectKey := "", Bucket := "" } }

/-- The source with a header row only. -/
def headerOnlyCSV : String := "id,name\n"

/-- A source whose second data row has one field where the header has two. -/
def shortRowCSV : String := "id,name\n1,Alice\n2\n3,Carol\n"

/-- The reader over `shortRowCSV` once the header is stored, with the raw
records `pending` still to read. -/
def shortRowReaderAt (b : Int) (pending : List RawRow) : CommonCSV :=
  { Reader := some ⟨2, pending⟩, Headers := some ["id", "name"], batchSize := b, eof := false,
    rawData := some shortRowCSV, fileInfo := { ObjectKey := "", Bucket := "" } }

/-- The reader over the header-only source once the header is stored, with
end-of-data flag `eof`. -/
def headerOnlyReaderAt (b : Int) (eof : Bool) : CommonCSV :=
  { Reader := some ⟨2, []⟩, Headers := some ["id", "name"], batchSize := b, eof := eof,
    rawData := some headerOnlyCSV, fileInfo := { ObjectKey := "", Bucket := "" } }

/-- Successive reads that all succeed: the parser after `n` reads and the
records read, or `none` when one of these reads returns an error. -/
def CsvReader.readRows : Nat → CsvReader → Option (CsvReader × List (List String))
  | 0, r => some (r, [])
  | n + 1, r =>
    match (r.Read).2.2 with
    | some _ => none
    | none =>
      match CsvReader.readRows n (r.Read).1 with
      | none => none
      | some (r2, rows) => some (r2, (r.Read).2.1 :: rows)

/-- The reader has no data row left to read: its headers are set, nothing is
pending, and either end-of-data was reached before or the batch size lets the
call attempt a read; or it is a first call (fresh parser, headers unset) on a
source made of one well-formed header record. -/
def NoDataRowLeft (c : CommonCSV) : Prop :=
  (∃ k hs, c.Reader = some ⟨k, []⟩ ∧ c.Headers = some hs ∧ (c.eof = true ∨ 1 ≤ c.batchSize)) ∨
  (∃ header, c.Reader = some ⟨0, [header]⟩ ∧ c.Headers = none ∧ header.isOk = true ∧
    1 ≤ c.batchSize)

/-- A source whose header row has a quote inside a non-quoted field. -/
def quotedHeaderCSV : String := "i\"d,name\n1,Alice\n"

/-- The raw records the row parser of the reader has not read yet. -/
def CommonCSV.unread (c : CommonCSV) : List RawRow :=
  match c.Reader with
  | some r => r.pending
  | none => []

/-- One call of `ParseHeaders`, `ReadNextBatch` or `ParseNextBatch` that returns
(with or without an error) takes the reader from the first state to the
second. -/
inductive Step : CommonCSV → CommonCSV → Prop where
  | parseHeaders {c c1 : CommonCSV} {hs : Headers} {err : Option Error} :
      c.ParseHeaders = some (c1, hs, err) → Step c c1
  | readNextBatch {c c1 : CommonCSV} {records : Records} {err : Option Error} :
      c.ReadNextBatch = some (c1, records, err) → Step c c1
  | parseNextBatch {τ : Type} (tgt : Target τ) (data : τ) {c c1 : CommonCSV} {d : τ}
      {err : Option Error} :
      c.ParseNextBatch tgt data = some (c1, d, err) → Step c c1

/-- The states a reader can be in: built by `NewCommonCSV`, initialised with
success by `InitializeS3CSVReader`, then taken through any number of calls of
the three reading methods. -/
inductive Reachable : CommonCSV → Prop where
  | init (options : List OptionFunc) (file : String) {c0 c : CommonCSV} :
      NewCommonCSV options = some (c0, none) →
      c0.InitializeS3CSVReader (some file) = (c, none) → Reachable c
  | step {c c1 : CommonCSV} : Reachable c → Step c c1 → Reachable c1

/-- The end-of-data flag tells the truth: when it is set nothing is unread. -/
def EofSound (c : CommonCSV) : Prop :=
  c.eof = true → c.unread = []

/-- From `c` to `c1` the end-of-data flag is not lowered and stays truthful. -/
def Advances (c c1 : CommonCSV) : Prop :=
  (c.eof = true → c1.eof = true) ∧ (EofSound c → EofSound c1)

/-! ## The target `[]models.User` and the trigger `handleUpdateCSV` -/

/-- Go `models.User`; `ID` is a `uint64`, the other fields are strings.  The
JSON names of the fields are `id`, `name`, `phone_number`, `email` and
`country`. -/
structure User where
  ID : Nat
  Name : String
  PhoneNumber : String
  Email : String
  Country : String
deriving DecidableEq, Repr

/-- Whether `encoding/json` binds the object key `key` to the struct field of
JSON name `name`: the two are equal up to the case of ASCII letters.  (The
library also folds the Kelvin sign to `k` and the long s to `s`; none of the
names of `User` has one of these letters.) -/
def keyMatches (name key : String) : Bool :=
  key.toList.map Char.toLower == name.toList.map Char.toLower

/-- The order of Go strings (byte-wise on the UTF-8 encoding, which is the
order of the code points), on lists of characters. -/
def keyLt : List Char → List Char → Bool
  | _, [] => false
  | [], _ :: _ => true
  | a :: as, b :: bs =>
    if a.toNat < b.toNat then true
    else if b.toNat < a.toNat then false
    else keyLt as bs

/-- Insertion of an entry into a list of entries sorted by key. -/
def insertByKey (e : String × String) : GoMap → GoMap
  | [] => [e]
  | f :: rest =>
    if keyLt e.1.toList f.1.toList then e :: f :: rest else f :: insertByKey e rest

/-- The entries of a map in the order in which `json.Marshal` writes them:
sorted by key. -/
def jsonKeyOrder (m : GoMap) : GoMap :=
  m.foldr insertByKey []

/-- The value a string field of JSON name `name` is left with after the
decoder has gone through the entries of `object` in order: that of the last
entry whose key is bound to the field, if there is one. -/
def lastMatch (name : String) (object : GoMap) : Option String :=
  ((object.filter (fun e => keyMatches name e.1)).getLast?).map Prod.snd

/-- Decoding one JSON object, all of whose values are JSON strings, into a zero
`User`: a string field takes the value of the last entry bound to it; `ID`
cannot take a JSON string and stays zero. -/
def decodeUser (object : GoMap) : User :=
  { ID := 0,
    Name := (lastMatch "name" (jsonKeyOrder object)).getD "",
    PhoneNumber := (lastMatch "phone_number" (jsonKeyOrder object)).getD "",
    Email := (lastMatch "email" (jsonKeyOrder object)).getD "",
    Country := (lastMatch "country" (jsonKeyOrder object)).getD "" }

/-- Whether the object has an entry bound to the field `ID`. -/
def hasIDKey (object : GoMap) : Bool :=
  object.any (fun e => keyMatches "id" e.1)

/-- The `*json.UnmarshalTypeError` for a JSON string met at the field `ID`. -/
def userIDTypeError : String :=
  "json: cannot unmarshal string into Go struct field User.id of type uint64"

/-- The target `var user []models.User` (a nil slice) of `handleUpdateCSV`.
`json.Unmarshal` decodes every object of the array, also after a type error,
and returns the first type error it met; every entry bound to `ID` is one,
since `Records.ToMaps` only makes string values. -/
def userTarget : Target (List User) :=
  { jsonUnmarshal := fun maps _ =>
      (maps.map decodeUser, if maps.any hasIDKey then some userIDTypeError else none) }

/-- How a run that is given `fuel` ends. -/
inductive Run (α : Type) where
  | outOfFuel
  | panicked
  | done (a : α)
deriving DecidableEq, Repr

/-- The response `handleUpdateCSV` writes with `ctx.JSON`: status 400 with an
`error` text, or status 200 with a `message` text. -/
inductive Response where
  | badRequest (error : String)
  | ok (message : String)
deriving DecidableEq, Repr

/-- The loop `for { if commonCSV.IsEOF() { break }; var user []models.User;
err = commonCSV.ParseNextBatch(&user) }` of `handleUpdateCSV`, run for at most
`fuel` tests of `IsEOF`.  Besides the reader it returns the values assigned to
`err`, in call order; the Go code never reads them. -/
def consumeLoop : Nat → CommonCSV → Run (CommonCSV × List (Option Error))
  | 0, _ => .outOfFuel
  | fuel + 1, c =>
    if c.IsEOF then .done (c, [])
    else
      match c.ParseNextBatch userTarget [] with
      | none => .panicked
      | some (c1, _, err) =>
        match consumeLoop fuel c1 with
        | .done (c2, errs) => .done (c2, err :: errs)
        | .outOfFuel => .outOfFuel
        | .panicked => .panicked

/-- The trigger `handleUpdateCSV`; `file` is what `os.ReadFile` finds. -/
def handleUpdateCSV (file : Option String) (fuel : Nat) : Run Response :=
  match NewCommonCSV [WithBatchSize 2] with
  | none => .panicked
  | some (commonCSV, err) =>
    match err with
    | some _ => .done (.badRequest "error while creating instance of commonCSV")
    | none =>
      match (commonCSV.InitializeS3CSVReader file).2 with
      | some _ => .done (.badRequest "error while initializing reader")
      | none =>
        match consumeLoop fuel (commonCSV.InitializeS3CSVReader file).1 with
        | .done _ => .done (.ok "success")
        | .outOfFuel => .outOfFuel
        | .panicked => .panicked

/-- A source whose only data row has a quote inside a non-quoted field. -/
def quotedRowCSV : String := "name,email\nAl\"ice,alice@example.org\n"

/-- A source of two data rows, without a header row. -/
def noHeaderCSV : String := "1,Alice\n2,Bob\n"

/-- The reader built with three pre-known headers and a row parser, then
initialised over `noHeaderCSV`. -/
def presetHeadersReader : CommonCSV :=
  { Reader := some (NewReader noHeaderCSV), Headers := some ["id", "name", "email"],
    batchSize := 100, eof := false, rawData := some noHeaderCSV,
    fileInfo := { ObjectKey := "", Bucket := "" } }

/-- One call of a method of the reader that returns takes it from the first
state to the second: `ParseHeaders`, `GetHeaders`, `ReadNextBatch`,
`ParseNextBatch`, `SetEOF` or `IsEOF`. -/
inductive MethodCall : CommonCSV → CommonCSV → Prop where
  | parseHeaders {c c1 : CommonCSV} {hs : Headers} {err : Option Error} :
      c.ParseHeaders = some (c1, hs, err) → MethodCall c c1
  | getHeaders {c c1 : CommonCSV} {hs : Headers} {err : Option Error} :
      c.GetHeaders = some (c1, hs, err) → MethodCall c c1
  | readNextBatch {c c1 : CommonCSV} {records : Records} {err : Option Error} :
      c.ReadNextBatch = some (c1, records, err) → MethodCall c c1
  | parseNextBatch {τ : Type} (tgt : Target τ) (data : τ) {c c1 : CommonCSV} {d : τ}
      {err : Option Error} :
      c.ParseNextBatch tgt data = some (c1, d, err) → MethodCall c c1
  | setEOF (c : CommonCSV) : MethodCall c c.SetEOF
  | isEOF (c : CommonCSV) (b : Bool) : c.IsEOF = b → MethodCall c c

/-- The reader after `calls` successive `ReadNextBatch` calls, whatever they
return; `none` if one panics. -/
def afterReadCalls : Nat → CommonCSV → Option CommonCSV
  | 0, c => some c
  | calls + 1, c =>
    match c.ReadNextBatch with
    | none => none
    | some (c1, _, _) => afterReadCalls calls c1

/-- Go `v, ok := m[key]`. -/
def GoMap.get : GoMap → String → Option String
  | [], _ => none
  | (k, v) :: rest, key => if k = key then some v else GoMap.get rest key

/-- The list `l` with its columns rearranged: column `j` of the result is
column `idx[j]` of `l`. -/
def permuteBy (idx : List Nat) (l : List String) : List String :=
  idx.map (fun i => l.getD i "")

/-- The data column bound to the string field of JSON name `name`: the position
of the only header bound to it, when there is exactly one. -/
def soleColumn : List String → String → Option Nat
  | [], _ => none
  | h :: hs, name =>
    if keyMatches name h then
      if hs.all (fun x => !keyMatches name x) then some 0 else none
    else (soleColumn hs name).map (fun i => i + 1)

/-- A source made of one header row that has a quote inside a non-quoted
field. -/
def quotedHeaderOnlyCSV : String := "i\"d,name\n"

/-- The reader `handleUpdateCSV` is left with once the row parser is at the end
of the source `file` and no headers were stored. -/
def stuckReader (file : String) : CommonCSV :=
  { Reader := some ⟨0, []⟩, Headers := none, batchSize := 2, eof := false,
    rawData := some file, fileInfo := { ObjectKey := "", Bucket := "" } }

/-- The reader can run its batch loop zero times: its batch size is 0 or less,
a row parser is bound and the end-of-data flag is false. -/
def IdleBatch (c : CommonCSV) : Prop :=
  c.batchSize ≤ 0 ∧ (∃ r, c.Reader = some r) ∧ c.eof = false

/-- What decoding the record `row` under the headers `hs` leaves in the
`User` `u`: `ID` is zero, and each string field that one header only is bound
to holds the field of the record in the column of that header. -/
def DecodedFrom (hs : List String) (row : List String) (u : User) : Prop :=
  u.ID = 0 ∧
  (∀ j, soleColumn hs "name" = some j → u.Name = row.getD j "") ∧
  (∀ j, soleColumn hs "phone_number" = some j → u.PhoneNumber = row.getD j "") ∧
  (∀ j, soleColumn hs "email" = some j → u.Email = row.getD j "") ∧
  (∀ j, soleColumn hs "country" = some j → u.Country = row.getD j "")

/-- A source whose first row has a quote inside its second, non-quoted
field, followed by a well-formed row of two fields. -/
def lateQuoteCSV : String := "a,b\"c\n1,2\n"

/-- A source with a malformed header row followed by two data rows. -/
def quotedHeaderRowsCSV : String := "i\"d,name\n1,Alice\n2,Bob\n"

/-! ## Record slices that share a backing array

The definitions above give every `[]string` as a value, which is exact for a
row parser as `csv.NewReader` creates it: each `Read` returns a new slice.  A
row parser supplied with `WithCSVReader` may have `ReuseRecord` set; its `Read`
then writes the record into the backing array of the slice it returned before,
and a slice kept from an earlier read shows the new fields.  The definitions
below repeat the reading methods over a heap of backing arrays, with slices as
references into it. -/

namespace Shared

/-- A `[]string`: the address of its backing array and its length (every slice
of this program starts at the first cell of its array). -/
structure SliceRef where
  array : Nat
  len : Nat
deriving DecidableEq, Repr

/-- The backing arrays of the heap, by address; the capacity of a slice is the
length of its array. -/
abbrev Arrays := List (List String)

/-- The fields a slice shows at present. -/
def SliceRef.fields (arrays : Arrays) (s : SliceRef) : List String :=
  (arrays.getD s.array []).take s.len

/-- State of a `*csv.Reader`: the exported fields `ReuseRecord` and
`FieldsPerRecord`, the raw records not yet read and the field `lastRecord`. -/
structure Reader where
  ReuseRecord : Bool
  FieldsPerRecord : Int
  pending : List RawRow
  lastRecord : Option SliceRef
deriving DecidableEq, Repr

/-- The end of `readRecord(dst)`: `dst = dst[:0]`, a new array from `make` when
the capacity of `dst` is less than the number of fields, then the fields are
written into `dst`.  Cells of a reused array beyond the new length keep what
they held.  With a nil `dst` and no field the result is nil. -/
def store (arrays : Arrays) (dst : Option SliceRef) (fields : List String) :
    Arrays × Option SliceRef :=
  match dst with
  | some d =>
    if fields.length ≤ (arrays.getD d.array []).length then
      (arrays.set d.array (fields ++ (arrays.getD d.array []).drop fields.length),
        some ⟨d.array, fields.length⟩)
    else (arrays ++ [fields], some ⟨arrays.length, fields.length⟩)
  | none =>
    if fields.length = 0 then (arrays, none)
    else (arrays ++ [fields], some ⟨arrays.length, fields.length⟩)

/-- Model of `(*csv.Reader).Read` with `ReuseRecord`: with the flag set the
record is stored into `r.lastRecord`, which then becomes the slice returned
(nil at the end of input); without it the record is stored into a new slice.
The field count is checked or fixed as in `CsvReader.Read`. -/
def Reader.Read (arrays : Arrays) (r : Reader) :
    Arrays × Reader × Option SliceRef × Option ReadError :=
  match r.pending with
  | [] =>
    (arrays, { r with lastRecord := if r.ReuseRecord then none else r.lastRecord }, none,
      some .EOF)
  | row :: rest =>
    let stored := store arrays (if r.ReuseRecord then r.lastRecord else none) row.record
    let last := if r.ReuseRecord then stored.2 else r.lastRecord
    let err : Option ReadError := if row.isOk then none else some .malformed
    if 0 < r.FieldsPerRecord then
      if (row.record.length : Int) ≠ r.FieldsPerRecord ∧ err = none then
        (stored.1, { r with pending := rest, lastRecord := last }, stored.2, some .fieldCount)
      else
        (stored.1, { r with pending := rest, lastRecord := last }, stored.2, err)
    else if r.FieldsPerRecord = 0 then
      (stored.1,
        { r with FieldsPerRecord := row.record.length, pending := rest, lastRecord := last },
        stored.2, err)
    else
      (stored.1, { r with pending := rest, lastRecord := last }, stored.2, err)

/-- The struct `CommonCSV` together with the backing arrays its slices refer
to. -/
structure CommonCSV where
  arrays : Arrays
  Reader : Option Reader
  Headers : Option SliceRef
  batchSize : Int
  eof : Bool
  rawData : Option String
  fileInfo : FileInfo
deriving DecidableEq, Repr

/-- Go `Records` with rows as references; `none` is nil. -/
abbrev Rows := Option (List (Option SliceRef))

/-- Go `append(records, record)`. -/
def Rows.append (records : Rows) (record : Option SliceRef) : Rows :=
  some (records.getD [] ++ [record])

/-- Method `SetEOF` -/
def CommonCSV.SetEOF (c : CommonCSV) : CommonCSV :=
  { c with eof := true }

/-- Method `IsEOF` -/
def CommonCSV.IsEOF (c : CommonCSV) : Bool :=
  c.eof

/-- Method `ParseHeaders`: on success `commonCSV.Headers = headers` keeps the
very slice that `Read` returned. -/
def CommonCSV.ParseHeaders (c : CommonCSV) :
    Option (CommonCSV × Option SliceRef × Option Error) :=
  match c.Headers with
  | some hs => some (c, some hs, none)
  | none =>
    match c.Reader with
    | none => none
    | some r =>
      let res := r.Read c.arrays
      match res.2.2.2 with
      | some err =>
        some ({ c with arrays := res.1, Reader := some res.2.1 }, none,
          some (.readingCSVHeaders err))
      | none =>
        some ({ c with arrays := res.1, Reader := some res.2.1, Headers := res.2.2.1 },
          res.2.2.1, none)

/-- Method `GetHeaders` -/
def CommonCSV.GetHeaders (c : CommonCSV) :
    Option (CommonCSV × Option SliceRef × Option Error) :=
  match c.Headers with
  | none => c.ParseHeaders
  | some hs => some (c, some hs, none)

/-- The loop of `ReadNextBatch`, with `n` the number of iterations still to
run. -/
def CommonCSV.readLoop : Nat → CommonCSV → Rows → Option (CommonCSV × Rows × Option Error)
  | 0, c, records => some (c, records, none)
  | n + 1, c, records =>
    match c.Reader with
    | none => none
    | some r =>
      let res := r.Read c.arrays
      if res.2.2.2 = some .EOF then
        some (CommonCSV.SetEOF { c with arrays := res.1, Reader := some res.2.1 }, records, none)
      else
        match res.2.2.2 with
        | some err =>
          some ({ c with arrays := res.1, Reader := some res.2.1 }, none,
            some (.readingCSVRecord err))
        | none =>
          CommonCSV.readLoop n { c with arrays := res.1, Reader := some res.2.1 }
            (Rows.append records res.2.2.1)

/-- The statement `if commonCSV.Headers == nil { commonCSV.ParseHeaders() }`. -/
def CommonCSV.lazyHeaders (c : CommonCSV) : Option CommonCSV :=
  match c.Headers with
  | none => c.ParseHeaders.map (fun res => res.1)
  | some _ => some c

/-- Method `ReadNextBatch` -/
def CommonCSV.ReadNextBatch (c : CommonCSV) : Option (CommonCSV × Rows × Option Error) :=
  match c.lazyHeaders with
  | none => none
  | some c1 => CommonCSV.readLoop c1.batchSize.toNat c1 none

/-- The fields the rows of a batch show at present. -/
def CommonCSV.rowFields (c : CommonCSV) (records : Rows) : Records :=
  records.map (fun rows => rows.map (fun row =>
    match row with
    | some s => s.fields c.arrays
    | none => []))

/-- Method `ParseNextBatch`; `records.Unmarshal(headers, data)` sees the fields
the slices show once the batch is read. -/
def CommonCSV.ParseNextBatch {τ : Type} (tgt : Target τ) (c : CommonCSV) (data : τ) :
    Option (CommonCSV × τ × Option Error) :=
  match c.ParseHeaders with
  | none => none
  | some (c1, headers, err) =>
    match err with
    | some e => some (c1, data, some e)
    | none =>
      match c1.ReadNextBatch with
      | none => none
      | some (c2, records, err) =>
        match err with
        | some e => some (c2, data, some e)
        | none =>
          match Records.Unmarshal tgt (c2.rowFields records)
              (headers.map (SliceRef.fields c2.arrays)) data with
          | none => none
          | some (data2, err) => some (c2, data2, err)

/-- One call of a method of the reader that returns: `ParseHeaders`,
`GetHeaders`, `ReadNextBatch`, `ParseNextBatch`, `SetEOF` or `IsEOF`. -/
inductive MethodCall : CommonCSV → CommonCSV → Prop where
  | parseHeaders {c c1 : CommonCSV} {hs : Option SliceRef} {err : Option Error} :
      c.ParseHeaders = some (c1, hs, err) → MethodCall c c1
  | getHeaders {c c1 : CommonCSV} {hs : Option SliceRef} {err : Option Error} :
      c.GetHeaders = some (c1, hs, err) → MethodCall c c1
  | readNextBatch {c c1 : CommonCSV} {records : Rows} {err : Option Error} :
      c.ReadNextBatch = some (c1, records, err) → MethodCall c c1
  | parseNextBatch {τ : Type} (tgt : Target τ) (data : τ) {c c1 : CommonCSV} {d : τ}
      {err : Option Error} :
      c.ParseNextBatch tgt data = some (c1, d, err) → MethodCall c c1
  | setEOF (c : CommonCSV) : MethodCall c c.SetEOF
  | isEOF (c : CommonCSV) (b : Bool) : c.IsEOF = b → MethodCall c c

end Shared

/-! ## Sources that parse without error -/

/-- Every raw record of the list is well formed and has `k` fields. -/
def Uniform (k : Nat) (rows : List RawRow) : Prop :=
  ∀ row ∈ rows, row.isOk = true ∧ row.record.length = k

/-- Every record of the source is read without error by a parser that starts
with `FieldsPerRecord = 0`: no record has a quoting error and every record has
as many fields as the first one. -/
def ParsesCleanly : List RawRow → Prop
  | [] => True
  | header :: data => header.isOk = true ∧ Uniform header.record.length data

instance (k : Nat) (rows : List RawRow) : Decidable (Uniform k rows) :=
  inferInstanceAs (Decidable (∀ row ∈ rows, row.isOk = true ∧ row.record.length = k))

instance (src : List RawRow) : Decidable (ParsesCleanly src) :=
  match src with
  | [] => inferInstanceAs (Decidable True)
  | header :: data =>
    inferInstanceAs (Decidable (header.isOk = true ∧ Uniform header.record.length data))

/-- Go `append` of several records in turn. -/
def Records.extend (records : Records) (rows : List (List String)) : Records :=
  rows.foldl Records.append records

/-! ## Lemmas on the row parser and the batch loop -/

theorem Uniform.tail {k : Nat} {row : RawRow} {rows : List RawRow}
    (h : Uniform k (row :: rows)) : Uniform k rows :=
  fun r hr => h r (List.mem_cons_of_mem _ hr)

theorem Uniform.drop {k : Nat} {rows : List RawRow} (h : Uniform k rows) (n : Nat) :
    Uniform k (rows.drop n) :=
  fun r hr => h r (List.mem_of_mem_drop hr)

theorem RawRow.record_ne_nil_of_isOk {row : RawRow} (h : row.isOk = true) :
    row.record ≠ [] := by
  cases row <;> simp_all [RawRow.isOk, RawRow.record]

theorem Records.rows_append (records : Records) (record : List String) :
    Records.rows (Records.append records record) = Records.rows records ++ [record] := by
  simp [Records.append, Records.rows]

theorem Records.rows_extend (rows : List (List String)) (records : Records) :
    Records.rows (Records.extend records rows) = Records.rows records ++ rows := by
  induction rows generalizing records with
  | nil => simp [Records.extend]
  | cons r rest ih =>
    have h := ih (Records.append records r)
    simp only [Records.extend, List.foldl_cons] at h ⊢
    rw [h, Records.rows_append]
    simp

theorem CsvReader.Read_nil (k : Int) :
    CsvReader.Read ⟨k, []⟩ = (⟨k, []⟩, [], some .EOF) := rfl

theorem CsvReader.Read_uniform {k : Nat} (hk : 0 < k) {row : RawRow} (rest : List RawRow)
    (hok : row.isOk = true) (hlen : row.record.length = k) :
    CsvReader.Read ⟨k, row :: rest⟩ = (⟨k, rest⟩, row.record, none) := by
  have hk2 : (0 : Int) < (k : Int) := by exact_mod_cast hk
  simp [CsvReader.Read, hok, hlen, hk2]

theorem CsvReader.Read_fresh (row : RawRow) (rest : List RawRow) :
    CsvReader.Read ⟨0, row :: rest⟩ =
      (⟨row.record.length, rest⟩, row.record, if row.isOk then none else some .malformed) := by
  simp [CsvReader.Read]

theorem CsvReader.Read_pos_cons {k : Nat} (hk : 0 < k) (row : RawRow) (rest : List RawRow) :
    (CsvReader.Read ⟨k, row :: rest⟩).1 = ⟨k, rest⟩ ∧
      ((CsvReader.Read ⟨k, row :: rest⟩).2.2 = none ↔
        (row.isOk = true ∧ row.record.length = k)) := by
  have hk2 : (0 : Int) < (k : Int) := by exact_mod_cast hk
  cases hok : row.isOk <;> by_cases hlen : row.record.length = k <;>
    simp [CsvReader.Read, hok, hlen, hk2]

/-- With a positive expected field count, the parser reads all its pending
records without error exactly when they are all well formed with that many
fields. -/
theorem CsvReader.readRows_isSome_iff {k : Nat} (hk : 0 < k) (rows : List RawRow) :
    (∃ out, CsvReader.readRows rows.length ⟨k, rows⟩ = some out) ↔ Uniform k rows := by
  induction rows with
  | nil => simp [CsvReader.readRows, Uniform]
  | cons row rest ih =>
    obtain ⟨h1, h2⟩ := CsvReader.Read_pos_cons hk row rest
    simp only [List.length_cons, CsvReader.readRows, h1]
    cases herr : (CsvReader.Read ⟨k, row :: rest⟩).2.2 with
    | some e =>
      have hno : ¬ (row.isOk = true ∧ row.record.length = k) := by
        rw [← h2, herr]; simp
      constructor
      · rintro ⟨out, h⟩; simp at h
      · intro hu; exact absurd (hu row (List.mem_cons_self _ _)) hno
    | none =>
      have hrow := h2.mp herr
      simp only
      constructor
      · rintro ⟨out, hout⟩
        have hrest : Uniform k rest := by
          apply ih.mp
          cases hr : CsvReader.readRows rest.length ⟨k, rest⟩ with
          | none => simp [hr] at hout
          | some o => exact ⟨o, rfl⟩
        intro r hr
        rcases List.mem_cons.mp hr with rfl | hmem
        · exact hrow
        · exact hrest r hmem
      · intro hu
        obtain ⟨o, ho⟩ := ih.mpr hu.tail
        exact ⟨(o.1, (CsvReader.Read ⟨k, row :: rest⟩).2.1 :: o.2), by simp [ho]⟩

/-- The predicate `ParsesCleanly` says what its name says: a parser fresh from
`csv.NewReader` reads every record of the source without error. -/
theorem ParsesCleanly_iff_readRows (src : List RawRow) :
    ParsesCleanly src ↔ ∃ out, CsvReader.readRows src.length ⟨0, src⟩ = some out := by
  cases src with
  | nil => simp [ParsesCleanly, CsvReader.readRows]
  | cons header data =>
    simp only [ParsesCleanly, List.length_cons, CsvReader.readRows, CsvReader.Read_fresh]
    cases hok : header.isOk with
    | false => simp
    | true =>
      have hk : 0 < header.record.length :=
        List.length_pos.mpr (RawRow.record_ne_nil_of_isOk hok)
      simp only [if_true, true_and]
      rw [← CsvReader.readRows_isSome_iff hk data]
      constructor
      · rintro ⟨o, ho⟩
        exact ⟨(o.1, header.record :: o.2), by simp [ho]⟩
      · rintro ⟨out, hout⟩
        cases hr : CsvReader.readRows data.length ⟨header.record.length, data⟩ with
        | none => simp [hr] at hout
        | some o => exact ⟨o, rfl⟩

/-- The batch loop on a parser whose pending records are all well formed with
the expected number of fields: it takes the first `n` of them and raises the
end-of-data flag exactly when fewer than `n` were left. -/
theorem CommonCSV.readLoop_uniform (n : Nat) {k : Nat} (hk : 0 < k) :
    ∀ (pending : List RawRow) (records : Records) (h : CsvParser.Headers) (b : Int) (e : Bool)
      (raw : Option String) (fi : FileInfo), Uniform k pending →
      CommonCSV.readLoop n ⟨some ⟨k, pending⟩, h, b, e, raw, fi⟩ records =
        some (⟨some ⟨k, pending.drop n⟩, h, b, e || decide (pending.length < n), raw, fi⟩,
              Records.extend records ((pending.take n).map RawRow.record), none) := by
  induction n with
  | zero =>
    intro pending records h b e raw fi _
    simp [CommonCSV.readLoop, Records.extend]
  | succ n ih =>
    intro pending records h b e raw fi hu
    cases pending with
    | nil =>
      simp [CommonCSV.readLoop, CsvReader.Read_nil, CommonCSV.SetEOF, Records.extend]
    | cons row rest =>
      have hrow := hu row (List.mem_cons_self _ _)
      rw [CommonCSV.readLoop]
      simp only [CsvReader.Read_uniform hk rest hrow.1 hrow.2]
      simp only [reduceCtorEq, if_false]
      rw [ih rest _ h b e raw fi hu.tail]
      simp [Records.extend]

/-- The batch loop never collects more than `n` further rows and leaves the
batch size alone. -/
theorem CommonCSV.readLoop_length (n : Nat) :
    ∀ (c c2 : CommonCSV) (records out : Records) (err : Option Error),
      CommonCSV.readLoop n c records = some (c2, out, err) →
      (Records.rows out).length ≤ (Records.rows records).length + n ∧
        c2.batchSize = c.batchSize := by
  induction n with
  | zero =>
    intro c c2 records out err h
    simp only [CommonCSV.readLoop, Option.some.injEq, Prod.mk.injEq] at h
    obtain ⟨h1, h2, _⟩ := h
    subst h1 h2
    simp
  | succ n ih =>
    intro c c2 records out err h
    rw [CommonCSV.readLoop] at h
    cases hr : c.Reader with
    | none => simp [hr] at h
    | some r =>
      simp only [hr] at h
      split at h
      · simp only [Option.some.injEq, Prod.mk.injEq] at h
        obtain ⟨h1, h2, _⟩ := h
        subst h1 h2
        simp [CommonCSV.SetEOF]
      · split at h
        · simp only [Option.some.injEq, Prod.mk.injEq] at h
          obtain ⟨h1, h2, _⟩ := h
          subst h1 h2
          simp [Records.rows]
        · have h3 := ih _ _ _ _ _ h
          rw [Records.rows_append] at h3
          simp only [List.length_append, List.length_singleton] at h3
          exact ⟨by omega, h3.2⟩

theorem CommonCSV.ParseHeaders_batchSize {c c1 : CommonCSV} {hs : CsvParser.Headers}
    {err : Option Error} (h : c.ParseHeaders = some (c1, hs, err)) :
    c1.batchSize = c.batchSize := by
  unfold CommonCSV.ParseHeaders at h
  split at h
  · simp only [Option.some.injEq, Prod.mk.injEq] at h
    rw [← h.1]
  · split at h
    · simp at h
    · dsimp only at h
      split at h <;>
      · simp only [Option.some.injEq, Prod.mk.injEq] at h
        rw [← h.1]

theorem CommonCSV.lazyHeaders_batchSize {c c1 : CommonCSV} (h : c.lazyHeaders = some c1) :
    c1.batchSize = c.batchSize := by
  unfold CommonCSV.lazyHeaders at h
  split at h
  · simp only [Option.map_eq_some', Prod.exists] at h
    obtain ⟨a, hs, err, h1, h2⟩ := h
    subst h2
    exact CommonCSV.ParseHeaders_batchSize h1
  · simp only [Option.some.injEq] at h
    rw [h]

theorem CommonCSV.ReadNextBatch_of_headers (k : Int) (pending : List RawRow) (hs : List String)
    (b : Int) (e : Bool) (raw : Option String) (fi : FileInfo) :
    CommonCSV.ReadNextBatch ⟨some ⟨k, pending⟩, some hs, b, e, raw, fi⟩ =
      CommonCSV.readLoop b.toNat ⟨some ⟨k, pending⟩, some hs, b, e, raw, fi⟩ none := by
  simp [CommonCSV.ReadNextBatch, CommonCSV.lazyHeaders]

/-- The loop over `ReadNextBatch` on a reader whose headers are set and whose
pending records are all well formed: it ends and its batches add up to the
pending records. -/
theorem readAllBatches_uniform {k : Nat} (hk : 0 < k) (hs : List String) (b : Int) (hb : 1 ≤ b)
    (raw : Option String) (fi : FileInfo) (fuel : Nat) :
    ∀ pending : List RawRow, Uniform k pending → pending.length + 2 ≤ fuel →
      ∃ c2 batches,
        readAllBatches fuel ⟨some ⟨k, pending⟩, some hs, b, false, raw, fi⟩ = some (c2, batches) ∧
        c2.IsEOF = true ∧
        (batches.map Records.rows).flatten = pending.map RawRow.record := by
  induction fuel with
  | zero => intro pending _ hf; omega
  | succ fuel ih =>
    intro pending hu hf
    have hn : 1 ≤ b.toNat := by omega
    rw [readAllBatches]
    simp only [CommonCSV.IsEOF, Bool.false_eq_true, if_false]
    rw [CommonCSV.ReadNextBatch_of_headers, CommonCSV.readLoop_uniform b.toNat hk pending none
      (some hs) b false raw fi hu]
    simp only [Bool.false_or]
    by_cases hlt : pending.length < b.toNat
    · obtain ⟨f2, rfl⟩ : ∃ f2, fuel = f2 + 1 := ⟨fuel - 1, by omega⟩
      refine ⟨⟨some ⟨k, pending.drop b.toNat⟩, some hs, b, true, raw, fi⟩,
        [Records.extend none ((pending.take b.toNat).map RawRow.record)], ?_, ?_, ?_⟩
      · simp [hlt, readAllBatches, CommonCSV.IsEOF]
      · simp [CommonCSV.IsEOF]
      · simp only [List.map_cons, List.map_nil, List.flatten_cons, List.flatten_nil,
          List.append_nil]
        rw [Records.rows_extend, List.take_of_length_le (Nat.le_of_lt hlt)]
        simp [Records.rows]
    · have hlen : (pending.drop b.toNat).length + 2 ≤ fuel := by
        rw [List.length_drop]; omega
      obtain ⟨c2, batches, h1, h2, h3⟩ := ih (pending.drop b.toNat) (hu.drop _) hlen
      refine ⟨c2, Records.extend none ((pending.take b.toNat).map RawRow.record) :: batches,
        ?_, h2, ?_⟩
      · simp [hlt, h1]
      · simp only [List.map_cons, List.flatten_cons, h3]
        rw [Records.rows_extend]
        simp only [Records.rows, Option.getD_none, List.nil_append]
        rw [← List.map_append, List.take_append_drop]

/-- C1. On a freshly initialised reader (row parser at the start of the
source, headers unset, end-of-data flag false) with batch size at least 1,
over a source all of whose records parse without error, the loop that calls
`ReadNextBatch` until `IsEOF` is true ends, and the batches it collected, put
end to end in call order, are exactly the records of the source after the
first (header) record, in their order. -/
theorem readAllBatches_concat (c : CommonCSV) (src : List RawRow) (fuel : Nat)
    (hreader : c.Reader = some ⟨0, src⟩) (hheaders : c.Headers = none) (heof : c.eof = false)
    (hb : 1 ≤ c.batchSize) (hsrc : ParsesCleanly src) (hfuel : src.length + 2 ≤ fuel) :
    ∃ c2 batches,
      readAllBatches fuel c = some (c2, batches) ∧ c2.IsEOF = true ∧
      (batches.map Records.rows).flatten = (src.map RawRow.record).tail := by
  obtain ⟨rd, hd, b, e, raw, fi⟩ := c
  simp only at hreader hheaders heof hb
  subst hreader hheaders heof
  have hn : 1 ≤ b.toNat := by omega
  obtain ⟨n, hn2⟩ : ∃ n, b.toNat = n + 1 := ⟨b.toNat - 1, by omega⟩
  cases src with
  | nil =>
    obtain ⟨f2, rfl⟩ : ∃ f2, fuel = f2 + 2 := ⟨fuel - 2, by simp at hfuel; omega⟩
    refine ⟨⟨some ⟨0, []⟩, none, b, true, raw, fi⟩, [none], ?_, ?_, ?_⟩
    · simp [readAllBatches, CommonCSV.IsEOF, CommonCSV.ReadNextBatch, CommonCSV.lazyHeaders,
        CommonCSV.ParseHeaders, CsvReader.Read_nil, hn2, CommonCSV.readLoop, CommonCSV.SetEOF]
    · rfl
    · simp [Records.rows]
  | cons header data =>
    obtain ⟨hok, hu⟩ := hsrc
    have hk : 0 < header.record.length :=
      List.length_pos.mpr (RawRow.record_ne_nil_of_isOk hok)
    have hstep : CommonCSV.ReadNextBatch ⟨some ⟨0, header :: data⟩, none, b, false, raw, fi⟩ =
        CommonCSV.ReadNextBatch
          ⟨some ⟨header.record.length, data⟩, some header.record, b, false, raw, fi⟩ := by
      simp [CommonCSV.ReadNextBatch, CommonCSV.lazyHeaders, CommonCSV.ParseHeaders,
        CsvReader.Read_fresh, hok]
    have hloop : readAllBatches fuel ⟨some ⟨0, header :: data⟩, none, b, false, raw, fi⟩ =
        readAllBatches fuel
          ⟨some ⟨header.record.length, data⟩, some header.record, b, false, raw, fi⟩ := by
      cases fuel with
      | zero => rfl
      | succ f => simp only [readAllBatches, CommonCSV.IsEOF, hstep, Bool.false_eq_true, if_false]
    have hlen : data.length + 2 ≤ fuel := by simp at hfuel; omega
    obtain ⟨c2, batches, h1, h2, h3⟩ :=
      readAllBatches_uniform hk header.record b hb raw fi fuel data hu hlen
    exact ⟨c2, batches, by rw [hloop, h1], h2, by simpa using h3⟩

/-- C2. With a non-negative batch size, a `ReadNextBatch` call that
returns without error returns at most `batchSize` rows, whatever the state of
the reader and of its source. -/
theorem ReadNextBatch_length_le (c c2 : CommonCSV) (records : Records)
    (hb : 0 ≤ c.batchSize) (h : c.ReadNextBatch = some (c2, records, none)) :
    ((Records.rows records).length : Int) ≤ c.batchSize := by
  unfold CommonCSV.ReadNextBatch at h
  cases hl : c.lazyHeaders with
  | none => simp [hl] at h
  | some c1 =>
    simp only [hl] at h
    have h1 := (CommonCSV.readLoop_length _ _ _ _ _ _ h).1
    have h2 := CommonCSV.lazyHeaders_batchSize hl
    simp only [Records.rows, Option.getD_none, List.length_nil, Nat.zero_add] at h1
    have h3 : ((Records.rows records).length : Int) ≤ (c1.batchSize.toNat : Int) := by
      simp only [Records.rows]
      exact_mod_cast h1
    rw [h2] at h3
    omega

/-! ## Lemmas on `ToMaps`, `Unmarshal` and `ParseNextBatch` -/

theorem fillMap_isSome (record : List String) :
    ∀ (hs : List String) (i : Nat) (m : GoMap), i + hs.length ≤ record.length →
      ∃ m2, fillMap record hs i m = some m2 := by
  intro hs
  induction hs with
  | nil => intro i m _; exact ⟨m, rfl⟩
  | cons h hs ih =>
    intro i m hle
    simp only [List.length_cons] at hle
    have hi : i < record.length := by omega
    rw [fillMap, List.getElem?_eq_getElem hi]
    exact ih (i + 1) _ (by omega)

theorem toMapsLoop_isSome (hs : List String) :
    ∀ (rows : List (List String)) (acc : List GoMap),
      (∀ record ∈ rows, hs.length ≤ record.length) →
      ∃ out, toMapsLoop hs rows acc = some out := by
  intro rows
  induction rows with
  | nil => intro acc _; exact ⟨acc, rfl⟩
  | cons record rest ih =>
    intro acc hall
    obtain ⟨m, hm⟩ := fillMap_isSome record hs 0 []
      (by simpa using hall record (List.mem_cons_self _ _))
    rw [toMapsLoop, hm]
    exact ih _ (fun r hr => hall r (List.mem_cons_of_mem _ hr))

/-- Decoding a batch whose rows are at least as long as the headers does not
panic; the nil batch is refused with the error `nil pointer reference` and the
target is left as it was. -/
theorem Records.Unmarshal_total {τ : Type} (tgt : Target τ) (records : Records)
    (hs : List String) (data : τ)
    (hall : ∀ record ∈ Records.rows records, hs.length ≤ record.length) :
    ∃ d err, Records.Unmarshal tgt records (some hs) data = some (d, err) ∧
      (records = none → d = data ∧ err = some .nilPointerReference) := by
  cases records with
  | none => exact ⟨data, some .nilPointerReference, rfl, fun _ => ⟨rfl, rfl⟩⟩
  | some rows =>
    obtain ⟨out, hout⟩ := toMapsLoop_isSome hs rows [] (by simpa [Records.rows] using hall)
    have hmaps : Records.ToMaps (some rows) (some hs) = some out := by
      simpa [Records.ToMaps, Records.rows] using hout
    unfold Records.Unmarshal
    simp only [hmaps]
    cases hj : (tgt.jsonUnmarshal out data).2 with
    | none => exact ⟨(tgt.jsonUnmarshal out data).1, none, by simp [hj], by simp⟩
    | some msg =>
      exact ⟨(tgt.jsonUnmarshal out data).1, some (.json msg), by simp [hj], by simp⟩

theorem Records.extend_none_nil : Records.extend none [] = none := rfl

/-- A `ParseNextBatch` call on a reader whose headers are set and whose pending
records are all well formed with as many fields as there are headers. -/
theorem CommonCSV.ParseNextBatch_uniform {τ : Type} (tgt : Target τ) (data : τ) {k : Nat}
    (hk : 0 < k) (pending : List RawRow) (hs : List String) (hlen : hs.length = k) (b : Int)
    (e : Bool) (raw : Option String) (fi : FileInfo) (hu : Uniform k pending) :
    ∃ d err,
      CommonCSV.ParseNextBatch tgt ⟨some ⟨k, pending⟩, some hs, b, e, raw, fi⟩ data =
        some (⟨some ⟨k, pending.drop b.toNat⟩, some hs, b,
                e || decide (pending.length < b.toNat), raw, fi⟩, d, err) := by
  have hall : ∀ record ∈ Records.rows
      (Records.extend none ((pending.take b.toNat).map RawRow.record)),
      hs.length ≤ record.length := by
    intro record hrec
    rw [Records.rows_extend] at hrec
    simp only [Records.rows, Option.getD_none, List.nil_append, List.mem_map] at hrec
    obtain ⟨row, hrow, rfl⟩ := hrec
    rw [(hu row (List.mem_of_mem_take hrow)).2, hlen]
  obtain ⟨d, err, hU, _⟩ := Records.Unmarshal_total tgt _ hs data hall
  refine ⟨d, err, ?_⟩
  have hP : CommonCSV.ParseHeaders ⟨some ⟨k, pending⟩, some hs, b, e, raw, fi⟩ =
      some (⟨some ⟨k, pending⟩, some hs, b, e, raw, fi⟩, some hs, none) := rfl
  unfold CommonCSV.ParseNextBatch
  rw [hP]
  simp only
  rw [CommonCSV.ReadNextBatch_of_headers, CommonCSV.readLoop_uniform b.toNat hk pending none
    (some hs) b e raw fi hu]
  simp only [hU]

/-- The first `ParseNextBatch` call on a fresh parser whose first record is well
formed behaves as the call made once that record is stored as the headers. -/
theorem CommonCSV.ParseNextBatch_fresh {τ : Type} (tgt : Target τ) (data : τ) (header : RawRow)
    (rest : List RawRow) (hok : header.isOk = true) (b : Int) (e : Bool) (raw : Option String)
    (fi : FileInfo) :
    CommonCSV.ParseNextBatch tgt ⟨some ⟨0, header :: rest⟩, none, b, e, raw, fi⟩ data =
      CommonCSV.ParseNextBatch tgt
        ⟨some ⟨header.record.length, rest⟩, some header.record, b, e, raw, fi⟩ data := by
  simp [CommonCSV.ParseNextBatch, CommonCSV.ParseHeaders, CsvReader.Read_fresh, hok]

/-- The reader after `j` calls of `ParseNextBatch`, started with headers set
and well-formed pending records. -/
theorem afterParseCalls_uniform {τ : Type} (tgt : Target τ) (d0 : τ) {k : Nat} (hk : 0 < k)
    (hs : List String) (hlen : hs.length = k) (b : Int) (raw : Option String) (fi : FileInfo)
    (j : Nat) :
    ∀ (pending : List RawRow) (e : Bool), Uniform k pending →
      afterParseCalls tgt d0 j ⟨some ⟨k, pending⟩, some hs, b, e, raw, fi⟩ =
        some ⟨some ⟨k, pending.drop (j * b.toNat)⟩, some hs, b,
              e || decide (pending.length < j * b.toNat), raw, fi⟩ := by
  induction j with
  | zero => intro pending e _; simp [afterParseCalls]
  | succ j ih =>
    intro pending e hu
    obtain ⟨d, err, hP⟩ :=
      CommonCSV.ParseNextBatch_uniform tgt d0 hk pending hs hlen b e raw fi hu
    rw [afterParseCalls, hP]
    simp only
    rw [ih _ _ (hu.drop _)]
    have h1 : List.drop (j * b.toNat) (List.drop b.toNat pending) =
        List.drop ((j + 1) * b.toNat) pending := by
      rw [List.drop_drop]; congr 1; ring
    have h2 : (e || decide (pending.length < b.toNat) ||
        decide ((List.drop b.toNat pending).length < j * b.toNat)) =
        (e || decide (pending.length < (j + 1) * b.toNat)) := by
      rw [List.length_drop, Bool.or_assoc]
      congr 1
      rw [Bool.eq_iff_iff]
      simp only [Bool.or_eq_true, decide_eq_true_eq]
      have h3 : (j + 1) * b.toNat = j * b.toNat + b.toNat := by ring
      omega
    rw [h1, h2]

theorem freshReader_eq (b : Int) (file : String) :
    (NewCommonCSV [WithBatchSize b]).map
        (fun res => res.1.InitializeS3CSVReader (some file)) =
      some (freshReader b file, none) := rfl

/-- Witness of C1: the two-row source read in batches of one. -/
theorem readAllBatches_concat_witness :
    ParsesCleanly (lexCSV sampleCSV) ∧
      ∃ c2 batches,
        readAllBatches 5 (freshReader 1 sampleCSV) = some (c2, batches) ∧ c2.IsEOF = true ∧
        (batches.map Records.rows).flatten = ((lexCSV sampleCSV).map RawRow.record).tail :=
  ⟨by decide,
   readAllBatches_concat (freshReader 1 sampleCSV) (lexCSV sampleCSV) 5 rfl rfl rfl
     (by decide) (by decide) (by decide)⟩

/-- Witness of C2: the first batch of the two-row source with batch size 1. -/
theorem ReadNextBatch_length_le_witness :
    (freshReader 1 sampleCSV).ReadNextBatch =
        some (sampleReaderAt 1 1 false, some [["1", "Alice"]], none) ∧
      ((Records.rows (some [["1", "Alice"]])).length : Int) ≤ (freshReader 1 sampleCSV).batchSize :=
  ⟨by decide,
   ReadNextBatch_length_le (freshReader 1 sampleCSV) (sampleReaderAt 1 1 false)
     (some [["1", "Alice"]]) (by decide) (by decide)⟩

/-- C3, as amended. On a freshly initialised reader with batch size at least
1 over a source made of a header and data rows that all parse without error,
`IsEOF` after the `j`-th `ParseNextBatch` call is true exactly when the source
has fewer than `j * batchSize` data rows.  So it is false after every call that
leaves data rows unread, and after the call that returns the last data row it
is true only if that call returned fewer than `batchSize` rows; a last row that
fills its batch leaves `IsEOF` false. -/
theorem afterParseCalls_isEOF {τ : Type} (tgt : Target τ) (d0 : τ) (c : CommonCSV)
    (header : RawRow) (data : List RawRow) (j : Nat)
    (hreader : c.Reader = some ⟨0, header :: data⟩) (hheaders : c.Headers = none)
    (heof : c.eof = false) (hb : 1 ≤ c.batchSize) (hsrc : ParsesCleanly (header :: data))
    (hj : 1 ≤ j) :
    ∃ cj, afterParseCalls tgt d0 j c = some cj ∧
      (cj.IsEOF = true ↔ (data.length : Int) < j * c.batchSize) := by
  obtain ⟨rd, hd, b, e, raw, fi⟩ := c
  simp only at hreader hheaders heof hb
  subst hreader hheaders heof
  obtain ⟨hok, hu⟩ := hsrc
  have hk : 0 < header.record.length :=
    List.length_pos.mpr (RawRow.record_ne_nil_of_isOk hok)
  obtain ⟨i, rfl⟩ : ∃ i, j = i + 1 := ⟨j - 1, by omega⟩
  have hfirst : afterParseCalls tgt d0 (i + 1) ⟨some ⟨0, header :: data⟩, none, b, false, raw, fi⟩ =
      afterParseCalls tgt d0 (i + 1)
        ⟨some ⟨header.record.length, data⟩, some header.record, b, false, raw, fi⟩ := by
    simp only [afterParseCalls, CommonCSV.ParseNextBatch_fresh tgt d0 header data hok]
  refine ⟨_, by rw [hfirst, afterParseCalls_uniform tgt d0 hk header.record rfl b raw fi (i + 1)
    data false hu], ?_⟩
  simp only [CommonCSV.IsEOF, Bool.false_or, decide_eq_true_eq]
  have hcast : ((b.toNat : Nat) : Int) = b := Int.toNat_of_nonneg (by omega)
  constructor
  · intro h
    have h2 : ((data.length : Nat) : Int) < (((i + 1) * b.toNat : Nat) : Int) := by
      exact_mod_cast h
    simpa [hcast] using h2
  · intro h
    have h2 : ((data.length : Nat) : Int) < (((i + 1) * b.toNat : Nat) : Int) := by
      simpa [hcast] using h
    exact_mod_cast h2

/-- Witness of C3 as amended: the two-row source with batch size 1, after the
second call. -/
theorem afterParseCalls_isEOF_witness :
    ParsesCleanly (lexCSV sampleCSV) ∧
      ∃ cj, afterParseCalls anyTarget [] 2 (freshReader 1 sampleCSV) = some cj ∧
        (cj.IsEOF = true ↔ (([.ok "1" ["Alice"], .ok "2" ["Bob"]] : List RawRow).length : Int) <
          ((2 : Nat) : Int) * (freshReader 1 sampleCSV).batchSize) :=
  ⟨by decide,
   afterParseCalls_isEOF anyTarget [] (freshReader 1 sampleCSV) (.ok "id" ["name"])
     [.ok "1" ["Alice"], .ok "2" ["Bob"]] 2 (by decide) rfl rfl (by decide) (by decide)
     (by decide)⟩

/-- Counterexample to C3 on its own scenario: over the two-row source with
batch size 1 the first call yields the record of Alice and the second the
record of Bob, and `IsEOF` is still false right after the second call; only
the third call, which reads no row, raises the flag. -/
theorem ParseNextBatch_sample_calls :
    (freshReader 1 sampleCSV).ParseNextBatch anyTarget [] =
        some (sampleReaderAt 1 1 false, [[("id", "1"), ("name", "Alice")]], none) ∧
      (sampleReaderAt 1 1 false).IsEOF = false ∧
      (sampleReaderAt 1 1 false).ParseNextBatch anyTarget [] =
        some (sampleReaderAt 1 2 false, [[("id", "2"), ("name", "Bob")]], none) ∧
      (sampleReaderAt 1 2 false).IsEOF = false ∧
      (sampleReaderAt 1 2 false).ParseNextBatch anyTarget [] =
        some (sampleReaderAt 1 2 true, [], some .nilPointerReference) ∧
      (sampleReaderAt 1 2 true).IsEOF = true :=
  ⟨rfl, rfl, rfl, rfl, rfl, rfl⟩

/-- C4, as amended. On a reader with no data row left to read, `ParseNextBatch`
reads no row, returns the error `nil pointer reference` with which
`Records.Unmarshal` refuses the nil batch, leaves the target of the caller as
it was, and `IsEOF` is true afterwards. -/
theorem ParseNextBatch_no_data_row {τ : Type} (tgt : Target τ) (data : τ) (c : CommonCSV)
    (h : NoDataRowLeft c) :
    ∃ c2, c.ParseNextBatch tgt data = some (c2, data, some .nilPointerReference) ∧
      c2.IsEOF = true := by
  have key : ∀ (k : Int) (hs : List String) (b : Int) (e : Bool) (raw : Option String)
      (fi : FileInfo), (e = true ∨ 1 ≤ b) →
      ∃ c2, CommonCSV.ParseNextBatch tgt ⟨some ⟨k, []⟩, some hs, b, e, raw, fi⟩ data =
        some (c2, data, some .nilPointerReference) ∧ c2.IsEOF = true := by
    intro k hs b e raw fi hor
    cases hn : b.toNat with
    | zero =>
      have he : e = true := by
        rcases hor with he | hb
        · exact he
        · omega
      subst he
      exact ⟨⟨some ⟨k, []⟩, some hs, b, true, raw, fi⟩, by
        simp [CommonCSV.ParseNextBatch, CommonCSV.ParseHeaders, CommonCSV.ReadNextBatch,
          CommonCSV.lazyHeaders, hn, CommonCSV.readLoop, Records.Unmarshal], rfl⟩
    | succ n =>
      exact ⟨⟨some ⟨k, []⟩, some hs, b, true, raw, fi⟩, by
        simp [CommonCSV.ParseNextBatch, CommonCSV.ParseHeaders, CommonCSV.ReadNextBatch,
          CommonCSV.lazyHeaders, hn, CommonCSV.readLoop, CsvReader.Read_nil, CommonCSV.SetEOF,
          Records.Unmarshal], rfl⟩
  obtain ⟨rd, hd, b, e, raw, fi⟩ := c
  rcases h with ⟨k, hs, h1, h2, h3⟩ | ⟨header, h1, h2, h3, h4⟩
  · simp only at h1 h2 h3
    subst h1 h2
    exact key k hs b e raw fi h3
  · simp only at h1 h2 h4
    subst h1 h2
    rw [CommonCSV.ParseNextBatch_fresh tgt data header [] h3]
    exact key _ _ b e raw fi (Or.inr h4)

/-- Witness of C4 as amended: the header-only source with batch size 5. -/
theorem ParseNextBatch_no_data_row_witness :
    NoDataRowLeft (freshReader 5 headerOnlyCSV) ∧
      ∃ c2, (freshReader 5 headerOnlyCSV).ParseNextBatch anyTarget [] =
        some (c2, [], some .nilPointerReference) ∧ c2.IsEOF = true :=
  ⟨Or.inr ⟨.ok "id" ["name"], by decide, rfl, rfl, by decide⟩,
   ParseNextBatch_no_data_row anyTarget [] (freshReader 5 headerOnlyCSV)
     (Or.inr ⟨.ok "id" ["name"], by decide, rfl, rfl, by decide⟩)⟩

/-- Counterexample to C4 on its own scenario: over the header-only source with
batch size 5, `ParseNextBatch` returns an error, and again on the next call. -/
theorem ParseNextBatch_headerOnly_error :
    (freshReader 5 headerOnlyCSV).ParseNextBatch anyTarget [] =
        some (headerOnlyReaderAt 5 true, [], some .nilPointerReference) ∧
      (headerOnlyReaderAt 5 true).ParseNextBatch anyTarget [] =
        some (headerOnlyReaderAt 5 true, [], some .nilPointerReference) :=
  ⟨rfl, rfl⟩

/-- A successful `ParseHeaders` returns the headers it leaves stored, and they
are not nil. -/
theorem CommonCSV.ParseHeaders_ok {c c1 : CommonCSV} {hs : CsvParser.Headers}
    (h : c.ParseHeaders = some (c1, hs, none)) : ∃ l, hs = some l ∧ c1.Headers = some l := by
  unfold CommonCSV.ParseHeaders at h
  split at h
  · rename_i l hl
    simp only [Option.some.injEq, Prod.mk.injEq, and_true] at h
    obtain ⟨h1, h2⟩ := h
    subst h1 h2
    exact ⟨l, rfl, hl⟩
  · split at h
    · simp at h
    · dsimp only at h
      split at h
      · simp at h
      · simp only [Option.some.injEq, Prod.mk.injEq, and_true] at h
        obtain ⟨h1, h2⟩ := h
        subst h1 h2
        exact ⟨_, rfl, rfl⟩

/-- The batch loop stops at the first read that fails with an error other than
`io.EOF` and then returns that error and the nil batch. -/
theorem CommonCSV.readLoop_error (e : ReadError) (hne : e ≠ .EOF) (i : Nat) :
    ∀ (n : Nat) (c : CommonCSV) (records : Records) (r r1 : CsvReader)
      (rows : List (List String)),
      c.Reader = some r → r.readRows i = some (r1, rows) → i < n → (r1.Read).2.2 = some e →
      CommonCSV.readLoop n c records =
        some ({ c with Reader := some (r1.Read).1 }, none, some (.readingCSVRecord e)) := by
  induction i with
  | zero =>
    intro n c records r r1 rows hr hrows hin herr
    simp only [CsvReader.readRows, Option.some.injEq, Prod.mk.injEq] at hrows
    obtain ⟨rfl, _⟩ := hrows
    obtain ⟨m, rfl⟩ : ∃ m, n = m + 1 := ⟨n - 1, by omega⟩
    have hne2 : ¬ (some e = some ReadError.EOF) := by simpa using hne
    simp [CommonCSV.readLoop, hr, herr, hne2]
  | succ i ih =>
    intro n c records r r1 rows hr hrows hin herr
    obtain ⟨m, rfl⟩ : ∃ m, n = m + 1 := ⟨n - 1, by omega⟩
    rw [CsvReader.readRows] at hrows
    cases hread : (r.Read).2.2 with
    | some x => simp [hread] at hrows
    | none =>
      simp only [hread] at hrows
      cases hrest : CsvReader.readRows i (r.Read).1 with
      | none => simp [hrest] at hrows
      | some p =>
        obtain ⟨r2, rows2⟩ := p
        simp only [hrest, Option.some.injEq, Prod.mk.injEq] at hrows
        obtain ⟨rfl, _⟩ := hrows
        rw [CommonCSV.readLoop]
        simp only [hr, hread, reduceCtorEq, if_false]
        rw [ih m { c with Reader := some (r.Read).1 } _ (r.Read).1 r2 rows2 rfl hrest
          (by omega) herr]

/-- The batch loop of `ReadNextBatch` is all or nothing.  Let `c1` be the reader
at the start of the loop.  If the first `i` reads of the loop succeed, `i` is
less than the batch size, and the next read fails with an error other than
end-of-source, then the call stops at that read, returns the error and the nil
batch; and a `ParseNextBatch` call whose batch read fails so returns the same
error and leaves the target of the caller as it was. -/
theorem ReadNextBatch_error_discards (c1 : CommonCSV) (r r1 : CsvReader) (i : Nat)
    (rows : List (List String)) (e : ReadError)
    (hreader : c1.Reader = some r) (hreads : r.readRows i = some (r1, rows))
    (hi : (i : Int) < c1.batchSize) (herr : (r1.Read).2.2 = some e) (hne : e ≠ .EOF) :
    (∀ c : CommonCSV, c.lazyHeaders = some c1 →
      c.ReadNextBatch =
        some ({ c1 with Reader := some (r1.Read).1 }, none, some (.readingCSVRecord e))) ∧
    (∀ (τ : Type) (tgt : Target τ) (data : τ) (c : CommonCSV) (hs : Headers),
      c.ParseHeaders = some (c1, hs, none) →
      c.ParseNextBatch tgt data =
        some ({ c1 with Reader := some (r1.Read).1 }, data, some (.readingCSVRecord e))) := by
  have hin : i < c1.batchSize.toNat := by omega
  have hloop := CommonCSV.readLoop_error e hne i c1.batchSize.toNat c1 none r r1 rows hreader
    hreads hin herr
  constructor
  · intro c hc
    simp only [CommonCSV.ReadNextBatch, hc, hloop]
  · intro τ tgt data c hs hc
    obtain ⟨l, _, hl⟩ := CommonCSV.ParseHeaders_ok hc
    have hlazy : c1.lazyHeaders = some c1 := by simp [CommonCSV.lazyHeaders, hl]
    simp only [CommonCSV.ParseNextBatch, hc, CommonCSV.ReadNextBatch, hlazy, hloop]

/-- An instance of the lemma before: over `shortRowCSV` with batch size 5 the
second data row has a wrong field count; the row read before it is not
returned. -/
theorem ReadNextBatch_error_discards_shortRow :
    (freshReader 5 shortRowCSV).ReadNextBatch =
        some (shortRowReaderAt 5 [.ok "3" ["Carol"]], none,
          some (.readingCSVRecord .fieldCount)) ∧
      (freshReader 5 shortRowCSV).ParseNextBatch anyTarget [] =
        some (shortRowReaderAt 5 [.ok "3" ["Carol"]], [],
          some (.readingCSVRecord .fieldCount)) :=
  have h := ReadNextBatch_error_discards
    (shortRowReaderAt 5 [.ok "1" ["Alice"], .ok "2" [], .ok "3" ["Carol"]])
    ⟨2, [.ok "1" ["Alice"], .ok "2" [], .ok "3" ["Carol"]]⟩
    ⟨2, [.ok "2" [], .ok "3" ["Carol"]]⟩ 1 [["1", "Alice"]] .fieldCount rfl rfl (by decide) rfl
    (by decide)
  ⟨h.1 (freshReader 5 shortRowCSV) rfl,
   h.2 (List GoMap) anyTarget [] (freshReader 5 shortRowCSV) (some ["id", "name"]) rfl⟩

/-- C6. After a `ParseHeaders` call that succeeds, a second call returns the
same headers with no error and leaves the reader, row parser included, exactly
as it was: no record is consumed. -/
theorem ParseHeaders_idempotent (c c1 : CommonCSV) (hs : Headers)
    (h : c.ParseHeaders = some (c1, hs, none)) :
    c1.ParseHeaders = some (c1, hs, none) := by
  obtain ⟨l, h1, h2⟩ := CommonCSV.ParseHeaders_ok h
  subst h1
  simp [CommonCSV.ParseHeaders, h2]

/-- Witness of C6: the header of the two-row source. -/
theorem ParseHeaders_idempotent_witness :
    (freshReader 1 sampleCSV).ParseHeaders =
        some (sampleReaderAt 1 0 false, some ["id", "name"], none) ∧
      (sampleReaderAt 1 0 false).ParseHeaders =
        some (sampleReaderAt 1 0 false, some ["id", "name"], none) :=
  ⟨rfl, ParseHeaders_idempotent (freshReader 1 sampleCSV) (sampleReaderAt 1 0 false)
    (some ["id", "name"]) rfl⟩

theorem CsvReader.Read_cons_record (k : Int) (row : RawRow) (rest : List RawRow) :
    (CsvReader.Read ⟨k, row :: rest⟩).2.1 = row.record := by
  simp only [CsvReader.Read]
  split_ifs <;> rfl

/-- A read of a pending record returns no error exactly when the record is
well formed and does not differ in length from a positive expected count. -/
theorem CsvReader.Read_cons_ok_iff (k : Int) (row : RawRow) (rest : List RawRow) :
    (CsvReader.Read ⟨k, row :: rest⟩).2.2 = none ↔
      (row.isOk = true ∧ ¬ (0 < k ∧ (row.record.length : Int) ≠ k)) := by
  simp only [CsvReader.Read]
  cases hok : row.isOk <;> split_ifs <;> simp_all

/-- C7, as amended. On a reader with unset headers and a row parser bound,
`ParseHeaders` returns; it returns an error exactly when the read yields no
record (empty or exhausted source), a malformed record, or, when the row parser
carries a positive expected field count (left by an earlier failed header
read, or set on a supplied parser), a well-formed record with another number
of fields.  In that case it returns nil headers and leaves the headers of the
reader unset; otherwise it returns the record read and stores it as the
headers. -/
theorem ParseHeaders_unset (c : CommonCSV) (r : CsvReader)
    (hheaders : c.Headers = none) (hreader : c.Reader = some r) :
    ∃ c1 hs err, c.ParseHeaders = some (c1, hs, err) ∧
      (err ≠ none ↔
        (r.pending = [] ∨ ∃ row ∈ r.pending.head?, row.isOk = false ∨
          (0 < r.FieldsPerRecord ∧ (row.record.length : Int) ≠ r.FieldsPerRecord))) ∧
      (err ≠ none → hs = none ∧ c1.Headers = none) ∧
      (err = none →
        ∃ row ∈ r.pending.head?, hs = some row.record ∧ c1.Headers = some row.record) := by
  obtain ⟨rd, hd, b, e, raw, fi⟩ := c
  simp only at hheaders hreader
  subst hheaders hreader
  obtain ⟨k, pending⟩ := r
  cases pending with
  | nil =>
    exact ⟨⟨some ⟨k, []⟩, none, b, e, raw, fi⟩, none, some (.readingCSVHeaders .EOF), rfl,
      by simp, by simp, by simp⟩
  | cons row rest =>
    have hrec := CsvReader.Read_cons_record k row rest
    have hiff := CsvReader.Read_cons_ok_iff k row rest
    cases herr : (CsvReader.Read ⟨k, row :: rest⟩).2.2 with
    | some x =>
      have hno : ¬ (row.isOk = true ∧ ¬ (0 < k ∧ (row.record.length : Int) ≠ k)) := by
        rw [← hiff, herr]; simp
      refine ⟨⟨some (CsvReader.Read ⟨k, row :: rest⟩).1, none, b, e, raw, fi⟩, none,
        some (.readingCSVHeaders x), by simp [CommonCSV.ParseHeaders, herr], ?_, by simp,
        by simp⟩
      simp only [ne_eq, reduceCtorEq, not_false_eq_true, List.head?_cons, Option.mem_def,
        Option.some.injEq, exists_eq_left', true_iff]
      right
      by_cases hok : row.isOk = true
      · right
        by_contra hc
        exact hno ⟨hok, hc⟩
      · left
        simpa using hok
    | none =>
      obtain ⟨hok, hcount⟩ := hiff.mp herr
      refine ⟨⟨some (CsvReader.Read ⟨k, row :: rest⟩).1, some row.record, b, e, raw, fi⟩,
        some row.record, none, by simp [CommonCSV.ParseHeaders, herr, hrec], ?_, by simp,
        by simp⟩
      simp only [ne_eq, not_true_eq_false, List.head?_cons, Option.mem_def,
        Option.some.injEq, exists_eq_left', false_iff, reduceCtorEq, false_or]
      rintro (h | h)
      · rw [hok] at h; exact absurd h (by simp)
      · exact hcount h

/-- Witness of C7 as amended: on the empty source `ParseHeaders` fails. -/
theorem ParseHeaders_unset_witness :
    (freshReader 5 "").ParseHeaders =
        some (freshReader 5 "", none, some (.readingCSVHeaders .EOF)) ∧
      ∃ c1 hs err, (freshReader 5 "").ParseHeaders = some (c1, hs, err) ∧
        (err ≠ none ↔
          ((NewReader "").pending = [] ∨ ∃ row ∈ (NewReader "").pending.head?,
            row.isOk = false ∨
              (0 < (NewReader "").FieldsPerRecord ∧
                (row.record.length : Int) ≠ (NewReader "").FieldsPerRecord))) ∧
        (err ≠ none → hs = none ∧ c1.Headers = none) ∧
        (err = none →
          ∃ row ∈ (NewReader "").pending.head?,
            hs = some row.record ∧ c1.Headers = some row.record) :=
  ⟨rfl, ParseHeaders_unset (freshReader 5 "") (NewReader "") rfl rfl⟩

/-- Counterexample to C7: over `lateQuoteCSV` the first `ParseHeaders` call
fails on the malformed first row, which leaves the headers unset and the row
parser expecting one field; the second call, on this reader with unset headers,
reads the well-formed row `1,2` and still returns an error (wrong field count),
storing no headers. -/
theorem ParseHeaders_fieldCount_error :
    (freshReader 2 lateQuoteCSV).ParseHeaders =
        some (⟨some ⟨1, [.ok "1" ["2"]]⟩, none, 2, false, some lateQuoteCSV, ⟨"", ""⟩⟩, none,
          some (.readingCSVHeaders .malformed)) ∧
      CommonCSV.ParseHeaders
          ⟨some ⟨1, [.ok "1" ["2"]]⟩, none, 2, false, some lateQuoteCSV, ⟨"", ""⟩⟩ =
        some (⟨some ⟨1, []⟩, none, 2, false, some lateQuoteCSV, ⟨"", ""⟩⟩, none,
          some (.readingCSVHeaders .fieldCount)) ∧
      (RawRow.ok "1" ["2"]).isOk = true :=
  ⟨rfl, rfl, rfl⟩

/-! ## The end-of-data flag along a run -/

theorem Advances.refl (c : CommonCSV) : Advances c c :=
  ⟨fun h => h, fun h => h⟩

theorem Advances.trans {a b c : CommonCSV} (h1 : Advances a b) (h2 : Advances b c) :
    Advances a c :=
  ⟨fun h => h2.1 (h1.1 h), fun h => h2.2 (h1.2 h)⟩

theorem CsvReader.Read_pending (r : CsvReader) : (r.Read).1.pending = r.pending.tail := by
  unfold CsvReader.Read
  cases hp : r.pending with
  | nil => simp [hp]
  | cons row rest =>
    dsimp only
    split_ifs <;> rfl

theorem CsvReader.Read_eof_iff (r : CsvReader) :
    (r.Read).2.2 = some .EOF ↔ r.pending = [] := by
  unfold CsvReader.Read
  cases hp : r.pending with
  | nil => simp
  | cons row rest =>
    dsimp only
    cases row.isOk <;> split_ifs <;> simp

/-- Replacing the row parser by its state after one read keeps the flag truthful. -/
theorem Advances.of_read {c c1 : CommonCSV} {r : CsvReader} (hr : c.Reader = some r)
    (h1 : c1.Reader = some (r.Read).1) (h2 : c1.eof = c.eof) : Advances c c1 := by
  refine ⟨fun h => by rw [h2, h], fun hs he => ?_⟩
  have h3 := hs (by rw [← h2, he])
  simp only [CommonCSV.unread, hr] at h3
  simp [CommonCSV.unread, h1, CsvReader.Read_pending, h3]

theorem CommonCSV.ParseHeaders_advances {c c1 : CommonCSV} {hs : CsvParser.Headers}
    {err : Option Error} (h : c.ParseHeaders = some (c1, hs, err)) : Advances c c1 := by
  unfold CommonCSV.ParseHeaders at h
  split at h
  · simp only [Option.some.injEq, Prod.mk.injEq] at h
    rw [← h.1]
    exact Advances.refl c
  · split at h
    · simp at h
    · rename_i r hr
      dsimp only at h
      split at h <;>
      · simp only [Option.some.injEq, Prod.mk.injEq] at h
        rw [← h.1]
        exact Advances.of_read hr rfl rfl

theorem CommonCSV.lazyHeaders_advances {c c1 : CommonCSV} (h : c.lazyHeaders = some c1) :
    Advances c c1 := by
  unfold CommonCSV.lazyHeaders at h
  split at h
  · simp only [Option.map_eq_some', Prod.exists] at h
    obtain ⟨a, hs, err, h1, h2⟩ := h
    subst h2
    exact CommonCSV.ParseHeaders_advances h1
  · simp only [Option.some.injEq] at h
    rw [← h]
    exact Advances.refl c

theorem CommonCSV.readLoop_advances (n : Nat) :
    ∀ (c c1 : CommonCSV) (records out : Records) (err : Option Error),
      CommonCSV.readLoop n c records = some (c1, out, err) → Advances c c1 := by
  induction n with
  | zero =>
    intro c c1 records out err h
    simp only [CommonCSV.readLoop, Option.some.injEq, Prod.mk.injEq] at h
    rw [← h.1]
    exact Advances.refl c
  | succ n ih =>
    intro c c1 records out err h
    rw [CommonCSV.readLoop] at h
    cases hr : c.Reader with
    | none => simp [hr] at h
    | some r =>
      simp only [hr] at h
      split at h
      · rename_i heof
        simp only [Option.some.injEq, Prod.mk.injEq] at h
        rw [← h.1]
        refine ⟨fun _ => rfl, fun _ _ => ?_⟩
        have hp := (CsvReader.Read_eof_iff r).mp heof
        simp [CommonCSV.unread, CommonCSV.SetEOF, CsvReader.Read_pending, hp]
      · split at h
        · simp only [Option.some.injEq, Prod.mk.injEq] at h
          rw [← h.1]
          exact Advances.of_read hr rfl rfl
        · have hstep : Advances c { c with Reader := some (r.Read).1 } :=
            Advances.of_read hr rfl rfl
          exact hstep.trans (ih _ _ _ _ _ h)

theorem CommonCSV.ReadNextBatch_advances {c c1 : CommonCSV} {records : Records}
    {err : Option Error} (h : c.ReadNextBatch = some (c1, records, err)) : Advances c c1 := by
  unfold CommonCSV.ReadNextBatch at h
  cases hl : c.lazyHeaders with
  | none => simp [hl] at h
  | some c0 =>
    simp only [hl] at h
    exact (CommonCSV.lazyHeaders_advances hl).trans (CommonCSV.readLoop_advances _ _ _ _ _ _ h)

theorem CommonCSV.ParseNextBatch_advances {τ : Type} {tgt : Target τ} {data d : τ}
    {c c1 : CommonCSV} {err : Option Error} (h : c.ParseNextBatch tgt data = some (c1, d, err)) :
    Advances c c1 := by
  unfold CommonCSV.ParseNextBatch at h
  cases hp : c.ParseHeaders with
  | none => simp [hp] at h
  | some p1 =>
    obtain ⟨ca, hs, e1⟩ := p1
    have ha := CommonCSV.ParseHeaders_advances hp
    simp only [hp] at h
    cases e1 with
    | some e =>
      simp only [Option.some.injEq, Prod.mk.injEq] at h
      rw [← h.1]; exact ha
    | none =>
      simp only at h
      cases hrn : ca.ReadNextBatch with
      | none => simp [hrn] at h
      | some p2 =>
        obtain ⟨cb, records, e2⟩ := p2
        have hb := ha.trans (CommonCSV.ReadNextBatch_advances hrn)
        simp only [hrn] at h
        cases e2 with
        | some e =>
          simp only [Option.some.injEq, Prod.mk.injEq] at h
          rw [← h.1]; exact hb
        | none =>
          simp only at h
          cases hu : Records.Unmarshal tgt records hs data with
          | none => simp [hu] at h
          | some p3 =>
            simp only [hu, Option.some.injEq, Prod.mk.injEq] at h
            rw [← h.1]; exact hb

theorem Step.advances {c c1 : CommonCSV} (h : Step c c1) : Advances c c1 := by
  cases h with
  | parseHeaders h => exact CommonCSV.ParseHeaders_advances h
  | readNextBatch h => exact CommonCSV.ReadNextBatch_advances h
  | parseNextBatch tgt data h => exact CommonCSV.ParseNextBatch_advances h

theorem NewCommonCSV_eof {options : List OptionFunc} {c : CommonCSV} {err : Option Error}
    (h : NewCommonCSV options = some (c, err)) : c.eof = false := by
  unfold NewCommonCSV at h
  dsimp only at h
  split at h
  · split at h
    · simp at h
    · simp only [Option.some.injEq, Prod.mk.injEq] at h
      rw [← h.1]
  · simp only [Option.some.injEq, Prod.mk.injEq] at h
    rw [← h.1]

theorem CommonCSV.InitializeS3CSVReader_some (c : CommonCSV) (file : String) :
    c.InitializeS3CSVReader (some file) =
      ({ c with Reader := some (NewReader file), rawData := some file }, none) := by
  unfold CommonCSV.InitializeS3CSVReader CommonCSV.FileFromLocal
  cases c.rawData <;> rfl

theorem Reachable.eofSound {c : CommonCSV} (h : Reachable c) : EofSound c := by
  induction h with
  | init options file h0 hi =>
    rename_i c0 c
    rw [CommonCSV.InitializeS3CSVReader_some] at hi
    simp only [Prod.mk.injEq, and_true] at hi
    intro he
    rw [← hi] at he
    simp [NewCommonCSV_eof h0] at he
  | step _ hs ih => exact hs.advances.2 ih

/-- C8. On every state reachable from a freshly initialised reader by calls of
`ParseHeaders`, `ReadNextBatch` and `ParseNextBatch`: `IsEOF` is false while the
source has an unread record, and once `IsEOF` is true it is true after every
further sequence of such calls. -/
theorem isEOF_reachable (c : CommonCSV) (hc : Reachable c) :
    (c.unread ≠ [] → c.IsEOF = false) ∧
    (c.IsEOF = true → ∀ c2, Relation.ReflTransGen Step c c2 → c2.IsEOF = true) := by
  constructor
  · intro hne
    cases he : c.eof with
    | false => simp [CommonCSV.IsEOF, he]
    | true => exact absurd (hc.eofSound he) hne
  · intro he c2 hsteps
    induction hsteps with
    | refl => exact he
    | tail _ hstep ih => exact hstep.advances.1 ih

/-- Witness of C8: the fresh reader over the two-row source, where rows are
unread and `IsEOF` is false, and the reader after one batch of five, where
`IsEOF` is true and stays true. -/
theorem isEOF_reachable_witness :
    Reachable (freshReader 5 sampleCSV) ∧ (freshReader 5 sampleCSV).unread ≠ [] ∧
      (freshReader 5 sampleCSV).IsEOF = false ∧
      Reachable (sampleReaderAt 5 2 true) ∧ (sampleReaderAt 5 2 true).IsEOF = true ∧
      (∀ c2, Relation.ReflTransGen Step (sampleReaderAt 5 2 true) c2 → c2.IsEOF = true) :=
  have h1 : Reachable (freshReader 5 sampleCSV) :=
    Reachable.init [WithBatchSize 5] sampleCSV rfl rfl
  have hstep : (freshReader 5 sampleCSV).ReadNextBatch =
      some (sampleReaderAt 5 2 true, some [["1", "Alice"], ["2", "Bob"]], none) := rfl
  have h2 : Reachable (sampleReaderAt 5 2 true) := Reachable.step h1 (Step.readNextBatch hstep)
  ⟨h1, by decide, (isEOF_reachable (freshReader 5 sampleCSV) h1).1 (by decide), h2, rfl,
    (isEOF_reachable (sampleReaderAt 5 2 true) h2).2 rfl⟩

/-- C9, as amended. A successful `InitializeS3CSVReader` over file contents
`file` binds the row parser to a fresh cursor at the start of those bytes and
records them as the raw data; it leaves the batch size, the end-of-data flag
and the parsed headers as they were. -/
theorem InitializeS3CSVReader_frame (c : CommonCSV) (file : String) :
    c.InitializeS3CSVReader (some file) =
      ({ Reader := some (NewReader file), Headers := c.Headers, batchSize := c.batchSize,
         eof := c.eof, rawData := some file, fileInfo := c.fileInfo }, none) :=
  CommonCSV.InitializeS3CSVReader_some c file

/-- Counterexample to C9: initialising a reader whose headers are parsed and
whose end-of-data flag is true leaves the flag true and the headers in place. -/
theorem InitializeS3CSVReader_keeps_eof_and_headers :
    ((sampleReaderAt 1 2 true).InitializeS3CSVReader (some sampleCSV)).2 = none ∧
      ((sampleReaderAt 1 2 true).InitializeS3CSVReader (some sampleCSV)).1.Reader =
        some (NewReader sampleCSV) ∧
      ((sampleReaderAt 1 2 true).InitializeS3CSVReader (some sampleCSV)).1.IsEOF = true ∧
      ((sampleReaderAt 1 2 true).InitializeS3CSVReader (some sampleCSV)).1.Headers =
        some ["id", "name"] :=
  ⟨rfl, rfl, rfl, rfl⟩

/-- C10, the code at the failing input: on a fresh reader over a source whose
header row is malformed, `ParseHeaders` reports the failure of the row parser,
but `ReadNextBatch`, which makes the same read to parse the headers lazily,
drops that failure and returns a batch with a nil error. -/
theorem ReadNextBatch_drops_header_error :
    (freshReader 2 quotedHeaderCSV).ParseHeaders =
        some (⟨some ⟨0, [.ok "1" ["Alice"]]⟩, none, 2, false, some quotedHeaderCSV, ⟨"", ""⟩⟩,
          none, some (.readingCSVHeaders .malformed)) ∧
      (freshReader 2 quotedHeaderCSV).ReadNextBatch =
        some (⟨some ⟨2, []⟩, none, 2, true, some quotedHeaderCSV, ⟨"", ""⟩⟩,
          some [["1", "Alice"]], none) :=
  ⟨rfl, rfl⟩

/-! ## The trigger and the constructor -/

/-- C11, the code at a failing input: over a source whose data row is
malformed, both `ParseNextBatch` calls of the loop of `handleUpdateCSV` return
an error (the row parser's error, then `nil pointer reference` for the nil
batch), and the trigger still answers with status 200 and `success`. -/
theorem handleUpdateCSV_success_despite_errors :
    consumeLoop 6 (freshReader 2 quotedRowCSV) =
        .done (⟨some ⟨2, []⟩, some ["name", "email"], 2, true, some quotedRowCSV, ⟨"", ""⟩⟩,
          [some (.readingCSVRecord .malformed), some .nilPointerReference]) ∧
      handleUpdateCSV (some quotedRowCSV) 6 = .done (.ok "success") :=
  ⟨rfl, rfl⟩

/-- C12, the code at a failing input: a reader built with three pre-known
headers (and the row parser that `NewCommonCSV` needs for them) has
`FieldsPerRecord = 3`, but `InitializeS3CSVReader` replaces the row parser by a
new one that expects no field count; `ReadNextBatch` then returns rows of two
fields with no error, and `ParseNextBatch` panics in `ToMaps` on `record[2]`. -/
theorem presetHeaders_not_enforced :
    NewCommonCSV [WithCSVReader (some (NewReader "")), WithHeaders (some ["id", "name", "email"])] =
        some (⟨some ⟨3, []⟩, some ["id", "name", "email"], 100, false, none, ⟨"", ""⟩⟩, none) ∧
      CommonCSV.InitializeS3CSVReader (some noHeaderCSV)
          ⟨some ⟨3, []⟩, some ["id", "name", "email"], 100, false, none, ⟨"", ""⟩⟩ =
        (presetHeadersReader, none) ∧
      presetHeadersReader.ReadNextBatch =
        some (⟨some ⟨2, []⟩, some ["id", "name", "email"], 100, true, some noHeaderCSV, ⟨"", ""⟩⟩,
          some [["1", "Alice"], ["2", "Bob"]], none) ∧
      presetHeadersReader.ParseNextBatch userTarget [] = none :=
  ⟨rfl, rfl, rfl, rfl⟩

/-- C16, as amended. `IsEOF` only reads the flag. It returns true for an absent
(nil) reader, and false for a reader just returned by `NewCommonCSV`, on which
initialisation has not been called: the flag of a new reader is false. -/
theorem isEOF_before_init (options : List OptionFunc) (c : CommonCSV) (err : Option Error)
    (h : NewCommonCSV options = some (c, err)) :
    Receiver.IsEOF none = true ∧ Receiver.IsEOF (some c) = false := by
  refine ⟨rfl, ?_⟩
  simp [Receiver.IsEOF, CommonCSV.IsEOF, NewCommonCSV_eof h]

/-- Witness of C16 as amended: the reader of `NewCommonCSV()` without
options. -/
theorem isEOF_before_init_witness :
    NewCommonCSV [] = some (⟨none, none, 100, false, none, ⟨"", ""⟩⟩, none) ∧
      Receiver.IsEOF none = true ∧
      Receiver.IsEOF (some ⟨none, none, 100, false, none, ⟨"", ""⟩⟩) = false :=
  ⟨rfl, isEOF_before_init [] ⟨none, none, 100, false, none, ⟨"", ""⟩⟩ none rfl⟩

/-- Counterexample to C16: on the reader that `NewCommonCSV(WithBatchSize(2))`
returns, before any initialisation, `IsEOF` is false. -/
theorem isEOF_false_on_new_reader :
    NewCommonCSV [WithBatchSize 2] = some (⟨none, none, 2, false, none, ⟨"", ""⟩⟩, none) ∧
      Receiver.IsEOF (some ⟨none, none, 2, false, none, ⟨"", ""⟩⟩) = false :=
  ⟨rfl, rfl⟩

/-- A reader without headers whose row parser is at the end of its source is
left as it is by `ParseNextBatch`, which returns the error of `ParseHeaders`; so
the loop of the trigger does not end on it. -/
theorem consumeLoop_stuck (file : String) (fuel : Nat) :
    consumeLoop fuel (stuckReader file) = .outOfFuel := by
  have hstep : (stuckReader file).ParseNextBatch userTarget [] =
      some (stuckReader file, [], some (.readingCSVHeaders .EOF)) := rfl
  induction fuel with
  | zero => rfl
  | succ fuel ih =>
    have heof : (stuckReader file).IsEOF = false := rfl
    rw [consumeLoop, heof]
    simp only [Bool.false_eq_true, if_false, hstep, ih]

/-- C17, the code at failing inputs: over the empty source, and over a source
made of a malformed header row, every `ParseNextBatch` call of the loop of
`handleUpdateCSV` fails in `ParseHeaders` and leaves `IsEOF` false, so the loop
runs out of fuel whatever the fuel, and so does the trigger. -/
theorem consumeLoop_never_ends (fuel : Nat) :
    (freshReader 2 "").ParseNextBatch userTarget [] =
        some (stuckReader "", [], some (.readingCSVHeaders .EOF)) ∧
      consumeLoop fuel (freshReader 2 "") = .outOfFuel ∧
      handleUpdateCSV (some "") fuel = .outOfFuel ∧
      (freshReader 2 quotedHeaderOnlyCSV).ParseNextBatch userTarget [] =
        some (stuckReader quotedHeaderOnlyCSV, [], some (.readingCSVHeaders .malformed)) ∧
      consumeLoop fuel (freshReader 2 quotedHeaderOnlyCSV) = .outOfFuel ∧
      handleUpdateCSV (some quotedHeaderOnlyCSV) fuel = .outOfFuel := by
  have h1 : consumeLoop fuel (freshReader 2 "") = .outOfFuel := consumeLoop_stuck "" fuel
  have hq : (freshReader 2 quotedHeaderOnlyCSV).ParseNextBatch userTarget [] =
      some (stuckReader quotedHeaderOnlyCSV, [], some (.readingCSVHeaders .malformed)) := rfl
  have h2 : consumeLoop fuel (freshReader 2 quotedHeaderOnlyCSV) = .outOfFuel := by
    cases fuel with
    | zero => rfl
    | succ fuel =>
      have heof : (freshReader 2 quotedHeaderOnlyCSV).IsEOF = false := rfl
      rw [consumeLoop, heof]
      simp only [Bool.false_eq_true, if_false, hq, consumeLoop_stuck]
  have e1 : handleUpdateCSV (some "") fuel =
      match consumeLoop fuel (freshReader 2 "") with
      | .done _ => .done (.ok "success")
      | .outOfFuel => .outOfFuel
      | .panicked => .panicked := rfl
  have e2 : handleUpdateCSV (some quotedHeaderOnlyCSV) fuel =
      match consumeLoop fuel (freshReader 2 quotedHeaderOnlyCSV) with
      | .done _ => .done (.ok "success")
      | .outOfFuel => .outOfFuel
      | .panicked => .panicked := rfl
  exact ⟨rfl, h1, by rw [e1, h1], hq, h2, by rw [e2, h2]⟩

/-- C20, the code at failing inputs: with pre-known headers and no row parser
among the options, `NewCommonCSV` panics on `csvReader.FieldsPerRecord`; it
returns no reader. -/
theorem NewCommonCSV_headers_without_reader :
    NewCommonCSV [WithHeaders (some ["id", "name"])] = none ∧
      NewCommonCSV [WithHeaders (some ["id", "name"]), WithBatchSize 5] = none ∧
      NewCommonCSV [WithBatchSize 5, WithHeaders (some [])] = none :=
  ⟨rfl, rfl, rfl⟩

/-! ## The headers once set -/

theorem CommonCSV.ParseHeaders_of_headers {c : CommonCSV} {hs : List String}
    (h : c.Headers = some hs) : c.ParseHeaders = some (c, some hs, none) := by
  simp [CommonCSV.ParseHeaders, h]

theorem CommonCSV.readLoop_headers (n : Nat) :
    ∀ (c c1 : CommonCSV) (records out : Records) (err : Option Error),
      CommonCSV.readLoop n c records = some (c1, out, err) → c1.Headers = c.Headers := by
  induction n with
  | zero =>
    intro c c1 records out err h
    simp only [CommonCSV.readLoop, Option.some.injEq, Prod.mk.injEq] at h
    rw [← h.1]
  | succ n ih =>
    intro c c1 records out err h
    rw [CommonCSV.readLoop] at h
    cases hr : c.Reader with
    | none => simp [hr] at h
    | some r =>
      simp only [hr] at h
      split at h
      · simp only [Option.some.injEq, Prod.mk.injEq] at h
        rw [← h.1]
        rfl
      · split at h
        · simp only [Option.some.injEq, Prod.mk.injEq] at h
          rw [← h.1]
        · exact ih { c with Reader := some (r.Read).1 } _ _ _ _ h

theorem CommonCSV.ReadNextBatch_headers {c c1 : CommonCSV} {hs : List String}
    {records : Records} {err : Option Error} (h : c.Headers = some hs)
    (hcall : c.ReadNextBatch = some (c1, records, err)) : c1.Headers = some hs := by
  have hl : c.lazyHeaders = some c := by simp [CommonCSV.lazyHeaders, h]
  simp only [CommonCSV.ReadNextBatch, hl] at hcall
  rw [CommonCSV.readLoop_headers _ _ _ _ _ _ hcall, h]

theorem CommonCSV.ParseNextBatch_headers {τ : Type} {tgt : Target τ} {data d : τ}
    {c c1 : CommonCSV} {hs : List String} {err : Option Error} (h : c.Headers = some hs)
    (hcall : c.ParseNextBatch tgt data = some (c1, d, err)) : c1.Headers = some hs := by
  unfold CommonCSV.ParseNextBatch at hcall
  rw [CommonCSV.ParseHeaders_of_headers h] at hcall
  simp only at hcall
  cases hrn : c.ReadNextBatch with
  | none => simp [hrn] at hcall
  | some p =>
    obtain ⟨cb, records, e2⟩ := p
    have hb := CommonCSV.ReadNextBatch_headers h hrn
    simp only [hrn] at hcall
    cases e2 with
    | some e =>
      simp only [Option.some.injEq, Prod.mk.injEq] at hcall
      rw [← hcall.1]; exact hb
    | none =>
      simp only at hcall
      cases hu : Records.Unmarshal tgt records (some hs) data with
      | none => simp [hu] at hcall
      | some p3 =>
        simp only [hu, Option.some.injEq, Prod.mk.injEq] at hcall
        rw [← hcall.1]; exact hb

theorem MethodCall.headers {c c1 : CommonCSV} {hs : List String} (h : c.Headers = some hs)
    (hcall : MethodCall c c1) : c1.Headers = some hs := by
  cases hcall with
  | parseHeaders hp =>
    rw [CommonCSV.ParseHeaders_of_headers h] at hp
    simp only [Option.some.injEq, Prod.mk.injEq] at hp
    rw [← hp.1]; exact h
  | getHeaders hg =>
    simp only [CommonCSV.GetHeaders, h, Option.some.injEq, Prod.mk.injEq] at hg
    rw [← hg.1]; exact h
  | readNextBatch hr => exact CommonCSV.ReadNextBatch_headers h hr
  | parseNextBatch tgt data hp => exact CommonCSV.ParseNextBatch_headers h hp
  | setEOF => exact h
  | isEOF b _ => exact h

/-- With slices as values (a row parser that does not reuse records): once
the headers of a reader are set, they are the same after any sequence of calls
of `ParseHeaders`, `GetHeaders`, `ReadNextBatch`, `ParseNextBatch`, `SetEOF` and
`IsEOF`. -/
theorem headers_immutable (c c1 : CommonCSV) (hs : List String) (h : c.Headers = some hs)
    (hcalls : Relation.ReflTransGen MethodCall c c1) : c1.Headers = some hs := by
  induction hcalls with
  | refl => exact h
  | tail _ hcall ih => exact hcall.headers ih

/-! ## Batch sizes and the number of calls -/

/-- With the first record well formed, the loop over `ReadNextBatch` on a fresh
reader runs as on the reader that has this record as its headers. -/
theorem readAllBatches_fresh (header : RawRow) (data : List RawRow) (hok : header.isOk = true)
    (b : Int) (raw : Option String) (fi : FileInfo) (fuel : Nat) :
    readAllBatches fuel ⟨some ⟨0, header :: data⟩, none, b, false, raw, fi⟩ =
      readAllBatches fuel
        ⟨some ⟨header.record.length, data⟩, some header.record, b, false, raw, fi⟩ := by
  have hstep : CommonCSV.ReadNextBatch ⟨some ⟨0, header :: data⟩, none, b, false, raw, fi⟩ =
      CommonCSV.ReadNextBatch
        ⟨some ⟨header.record.length, data⟩, some header.record, b, false, raw, fi⟩ := by
    simp [CommonCSV.ReadNextBatch, CommonCSV.lazyHeaders, CommonCSV.ParseHeaders,
      CsvReader.Read_fresh, hok]
  cases fuel with
  | zero => rfl
  | succ f => simp only [readAllBatches, CommonCSV.IsEOF, hstep, Bool.false_eq_true, if_false]

/-- The sizes of the batches of the loop over `ReadNextBatch` on a reader whose
headers are set and whose pending records are all well formed. -/
theorem readAllBatches_sizes_uniform {k : Nat} (hk : 0 < k) (hs : List String) (b : Int)
    (hb : 1 ≤ b) (raw : Option String) (fi : FileInfo) (fuel : Nat) :
    ∀ pending : List RawRow, Uniform k pending → pending.length + 2 ≤ fuel →
      ∃ c2 batches,
        readAllBatches fuel ⟨some ⟨k, pending⟩, some hs, b, false, raw, fi⟩ = some (c2, batches) ∧
        batches.map (fun records => (Records.rows records).length) =
          List.replicate (pending.length / b.toNat) b.toNat ++ [pending.length % b.toNat] := by
  induction fuel with
  | zero => intro pending _ hf; omega
  | succ fuel ih =>
    intro pending hu hf
    have hn : 1 ≤ b.toNat := by omega
    rw [readAllBatches]
    simp only [CommonCSV.IsEOF, Bool.false_eq_true, if_false]
    rw [CommonCSV.ReadNextBatch_of_headers, CommonCSV.readLoop_uniform b.toNat hk pending none
      (some hs) b false raw fi hu]
    simp only [Bool.false_or]
    by_cases hlt : pending.length < b.toNat
    · obtain ⟨f2, rfl⟩ : ∃ f2, fuel = f2 + 1 := ⟨fuel - 1, by omega⟩
      refine ⟨⟨some ⟨k, pending.drop b.toNat⟩, some hs, b, true, raw, fi⟩,
        [Records.extend none ((pending.take b.toNat).map RawRow.record)], ?_, ?_⟩
      · simp [hlt, readAllBatches, CommonCSV.IsEOF]
      · simp only [List.map_cons, List.map_nil]
        rw [Records.rows_extend, List.take_of_length_le (Nat.le_of_lt hlt),
          Nat.div_eq_of_lt hlt, Nat.mod_eq_of_lt hlt]
        simp [Records.rows]
    · have hlen : (pending.drop b.toNat).length + 2 ≤ fuel := by
        rw [List.length_drop]; omega
      obtain ⟨c2, batches, h1, h2⟩ := ih (pending.drop b.toNat) (hu.drop _) hlen
      refine ⟨c2, Records.extend none ((pending.take b.toNat).map RawRow.record) :: batches,
        ?_, ?_⟩
      · simp [hlt, h1]
      · have hle : b.toNat ≤ pending.length := Nat.le_of_not_lt hlt
        have hdiv : pending.length / b.toNat = (pending.length - b.toNat) / b.toNat + 1 := by
          rw [Nat.div_eq pending.length b.toNat, if_pos ⟨by omega, hle⟩]
        have hmod : pending.length % b.toNat = (pending.length - b.toNat) % b.toNat :=
          Nat.mod_eq_sub_mod hle
        simp only [List.map_cons, h2, List.length_drop]
        rw [Records.rows_extend, hdiv, hmod, List.replicate_succ]
        simp [Records.rows, hle]

/-- C18. On a freshly initialised reader with batch size `b` at least 1, over a
source made of a header and `n` data rows that all parse without error, the
loop that calls `ReadNextBatch` until `IsEOF` is true ends after exactly
`n / b + 1` calls; the sizes of the batches are `b` for each of the first
`n / b` calls and `n % b` for the last one, so the last batch is empty exactly
when `b` divides `n`. -/
theorem readAllBatches_call_count (c : CommonCSV) (header : RawRow) (data : List RawRow)
    (fuel : Nat) (hreader : c.Reader = some ⟨0, header :: data⟩) (hheaders : c.Headers = none)
    (heof : c.eof = false) (hb : 1 ≤ c.batchSize) (hsrc : ParsesCleanly (header :: data))
    (hfuel : data.length + 2 ≤ fuel) :
    ∃ c2 batches,
      readAllBatches fuel c = some (c2, batches) ∧
      batches.length = data.length / c.batchSize.toNat + 1 ∧
      batches.map (fun records => (Records.rows records).length) =
        List.replicate (data.length / c.batchSize.toNat) c.batchSize.toNat ++
          [data.length % c.batchSize.toNat] ∧
      ((batches.map (fun records => (Records.rows records).length)).getLast? = some 0 ↔
        c.batchSize.toNat ∣ data.length) := by
  obtain ⟨rd, hd, b, e, raw, fi⟩ := c
  simp only at hreader hheaders heof hb
  subst hreader hheaders heof
  obtain ⟨hok, hu⟩ := hsrc
  have hk : 0 < header.record.length :=
    List.length_pos.mpr (RawRow.record_ne_nil_of_isOk hok)
  obtain ⟨c2, batches, h1, h2⟩ :=
    readAllBatches_sizes_uniform hk header.record b hb raw fi fuel data hu hfuel
  refine ⟨c2, batches, by rw [readAllBatches_fresh header data hok, h1], ?_, h2, ?_⟩
  · have h3 := congrArg List.length h2
    simpa using h3
  · rw [h2, List.getLast?_concat, Option.some.injEq, Nat.dvd_iff_mod_eq_zero]

/-- Witness of C18: the two-row source read in batches of two takes two
calls, the second of which returns the empty batch. -/
theorem readAllBatches_call_count_witness :
    readAllBatches 4 (freshReader 2 sampleCSV) =
        some (sampleReaderAt 2 2 true, [some [["1", "Alice"], ["2", "Bob"]], none]) ∧
      ∃ c2 batches,
        readAllBatches 4 (freshReader 2 sampleCSV) = some (c2, batches) ∧
        batches.length = 2 / 2 + 1 ∧
        batches.map (fun records => (Records.rows records).length) =
          List.replicate (2 / 2) 2 ++ [2 % 2] ∧
        ((batches.map (fun records => (Records.rows records).length)).getLast? = some 0 ↔
          2 ∣ 2) :=
  ⟨rfl,
   readAllBatches_call_count (freshReader 2 sampleCSV) (.ok "id" ["name"])
     [.ok "1" ["Alice"], .ok "2" ["Bob"]] 4 (by decide) rfl rfl (by decide) (by decide)
     (by decide)⟩

/-! ## Batch sizes of 0 or less -/

theorem CommonCSV.lazyHeaders_of_reader {c : CommonCSV} {r : CsvReader}
    (hr : c.Reader = some r) :
    ∃ c1 r1, c.lazyHeaders = some c1 ∧ c1.Reader = some r1 ∧ c1.eof = c.eof ∧
      c1.batchSize = c.batchSize ∧ (c.Headers ≠ none → c1 = c) := by
  obtain ⟨rd, hd, b, e, raw, fi⟩ := c
  simp only at hr
  subst hr
  cases hd with
  | some hs => exact ⟨_, r, rfl, rfl, rfl, rfl, fun _ => rfl⟩
  | none =>
    cases herr : (r.Read).2.2 with
    | some x =>
      exact ⟨⟨some (r.Read).1, none, b, e, raw, fi⟩, (r.Read).1,
        by simp [CommonCSV.lazyHeaders, CommonCSV.ParseHeaders, herr], rfl, rfl, rfl,
        fun h => absurd rfl h⟩
    | none =>
      exact ⟨⟨some (r.Read).1, some (r.Read).2.1, b, e, raw, fi⟩, (r.Read).1,
        by simp [CommonCSV.lazyHeaders, CommonCSV.ParseHeaders, herr], rfl, rfl, rfl,
        fun h => absurd rfl h⟩

/-- One `ReadNextBatch` call with a batch size of 0 or less: the batch loop
does not run, so the reader is left as the lazy header statement left it. -/
theorem CommonCSV.ReadNextBatch_idle {c : CommonCSV} (h : IdleBatch c) :
    ∃ c1, c.lazyHeaders = some c1 ∧ c.ReadNextBatch = some (c1, none, none) ∧ IdleBatch c1 ∧
      (c.Headers ≠ none → c1 = c) := by
  obtain ⟨hb, ⟨r, hr⟩, heof⟩ := h
  obtain ⟨c1, r1, h1, h2, h3, h4, h5⟩ := CommonCSV.lazyHeaders_of_reader hr
  have hn : c1.batchSize.toNat = 0 := by rw [h4]; omega
  refine ⟨c1, h1, ?_, ⟨by rw [h4]; exact hb, ⟨r1, h2⟩, by rw [h3, heof]⟩, h5⟩
  simp [CommonCSV.ReadNextBatch, h1, hn, CommonCSV.readLoop]

/-- C19, as amended. With a batch size of 0 or less, on a reader with a row parser bound
and the end-of-data flag false, every `ReadNextBatch` call returns the nil
batch with no error and leaves the flag false; its loop reads nothing (the
reader is left as the lazy header statement left it, and unchanged when the
headers were set).  So `IsEOF` is false after any number of calls, and the loop
that calls `ReadNextBatch` until `IsEOF` is true runs out of any fuel. -/
theorem ReadNextBatch_nonpositive_batch (c : CommonCSV) (r : CsvReader)
    (hb : c.batchSize ≤ 0) (hr : c.Reader = some r) (heof : c.eof = false) :
    (∃ c1, c.lazyHeaders = some c1 ∧ c.ReadNextBatch = some (c1, none, none) ∧
      c1.IsEOF = false ∧ (c.Headers ≠ none → c1 = c)) ∧
    (∀ n, ∃ cn, afterReadCalls n c = some cn ∧ cn.IsEOF = false) ∧
    (∀ fuel, readAllBatches fuel c = none) := by
  have hidle : IdleBatch c := ⟨hb, ⟨r, hr⟩, heof⟩
  refine ⟨?_, ?_, ?_⟩
  · obtain ⟨c1, h1, h2, h3, h4⟩ := CommonCSV.ReadNextBatch_idle hidle
    exact ⟨c1, h1, h2, h3.2.2, h4⟩
  · intro n
    clear hb hr heof
    induction n generalizing c with
    | zero => exact ⟨c, rfl, hidle.2.2⟩
    | succ n ih =>
      obtain ⟨c1, _, h2, h3, _⟩ := CommonCSV.ReadNextBatch_idle hidle
      obtain ⟨cn, h5, h6⟩ := ih c1 h3
      exact ⟨cn, by simp [afterReadCalls, h2, h5], h6⟩
  · intro fuel
    clear hb hr heof
    induction fuel generalizing c with
    | zero => rfl
    | succ fuel ih =>
      obtain ⟨c1, _, h2, h3, _⟩ := CommonCSV.ReadNextBatch_idle hidle
      have he : c.IsEOF = false := hidle.2.2
      rw [readAllBatches, he]
      simp [h2, ih c1 h3]

/-- Witness of C19 as amended: the two-row source with batch size 0; the first call
stores the header and reads no data row. -/
theorem ReadNextBatch_nonpositive_batch_witness :
    (freshReader 0 sampleCSV).ReadNextBatch = some (sampleReaderAt 0 0 false, none, none) ∧
      (∃ c1, (freshReader 0 sampleCSV).lazyHeaders = some c1 ∧
        (freshReader 0 sampleCSV).ReadNextBatch = some (c1, none, none) ∧
        c1.IsEOF = false ∧ ((freshReader 0 sampleCSV).Headers ≠ none → c1 = freshReader 0 sampleCSV)) ∧
      (∀ n, ∃ cn, afterReadCalls n (freshReader 0 sampleCSV) = some cn ∧ cn.IsEOF = false) ∧
      (∀ fuel, readAllBatches fuel (freshReader 0 sampleCSV) = none) :=
  ⟨rfl,
   ReadNextBatch_nonpositive_batch (freshReader 0 sampleCSV) (NewReader sampleCSV) (by decide)
     rfl rfl⟩

/-! ## `ToMaps` on distinct headers -/

theorem GoMap.set_of_not_mem (m : GoMap) (h v : String) (hm : ∀ e ∈ m, e.1 ≠ h) :
    GoMap.set m h v = m ++ [(h, v)] := by
  induction m with
  | nil => rfl
  | cons e rest ih =>
    obtain ⟨k, w⟩ := e
    have hk : k ≠ h := hm (k, w) (List.mem_cons_self _ _)
    simp only [GoMap.set, hk, if_false, List.cons_append]
    rw [ih (fun e he => hm e (List.mem_cons_of_mem _ he))]

/-- With distinct headers, none of them a key of the map so far, the inner loop
of `ToMaps` appends one entry per header, in order. -/
theorem fillMap_nodup (record : List String) :
    ∀ (hs : List String) (i : Nat) (m : GoMap), hs.Nodup → (∀ e ∈ m, e.1 ∉ hs) →
      i + hs.length ≤ record.length →
      fillMap record hs i m = some (m ++ hs.zip (record.drop i)) := by
  intro hs
  induction hs with
  | nil => intro i m _ _ _; simp [fillMap]
  | cons h hs ih =>
    intro i m hnd hm hle
    simp only [List.length_cons] at hle
    have hi : i < record.length := by omega
    obtain ⟨hh, hnd2⟩ := List.nodup_cons.mp hnd
    rw [fillMap, List.getElem?_eq_getElem hi]
    simp only
    rw [GoMap.set_of_not_mem m h _ (fun e he heq => hm e he (heq ▸ List.mem_cons_self _ _))]
    rw [ih (i + 1) _ hnd2 ?_ (by omega)]
    · rw [List.drop_eq_getElem_cons hi]
      simp only [List.zip_cons_cons, List.append_assoc, List.singleton_append]
    · intro e he
      rcases List.mem_append.mp he with h1 | h1
      · exact fun hc => hm e h1 (List.mem_cons_of_mem _ hc)
      · simp only [List.mem_singleton] at h1
        subst h1
        exact hh

theorem toMapsLoop_nodup (hs : List String) (hnd : hs.Nodup) :
    ∀ (rows : List (List String)) (acc : List GoMap),
      (∀ row ∈ rows, row.length = hs.length) →
      toMapsLoop hs rows acc = some (acc ++ rows.map (fun row => hs.zip row)) := by
  intro rows
  induction rows with
  | nil => intro acc _; simp [toMapsLoop]
  | cons row rest ih =>
    intro acc hall
    have hrow := hall row (List.mem_cons_self _ _)
    have hfill := fillMap_nodup row hs 0 [] hnd (by simp) (by omega)
    simp only [List.drop_zero, List.nil_append] at hfill
    rw [toMapsLoop, hfill]
    simp only
    rw [ih _ (fun r hr => hall r (List.mem_cons_of_mem _ hr))]
    simp

theorem map_getD_range (l : List String) :
    (List.range l.length).map (fun i => l.getD i "") = l := by
  apply List.ext_getElem
  · simp
  · intro i h1 h2
    simp [List.getD_eq_getElem?_getD, List.getElem?_eq_getElem h2]

theorem zip_eq_map_range (hs row : List String) (hlen : row.length = hs.length) :
    hs.zip row = (List.range hs.length).map (fun i => (hs.getD i "", row.getD i "")) := by
  have e1 : hs = (List.range hs.length).map (fun i => hs.getD i "") := (map_getD_range hs).symm
  have e2 : row = (List.range hs.length).map (fun i => row.getD i "") := by
    rw [← hlen]; exact (map_getD_range row).symm
  rw [← List.zip_map']
  exact congrArg₂ List.zip e1 e2

theorem permuteBy_perm (idx : List Nat) (l : List String)
    (hidx : idx.Perm (List.range l.length)) : (permuteBy idx l).Perm l := by
  have h := hidx.map (fun i => l.getD i "")
  rw [map_getD_range] at h
  exact h

theorem zip_permuteBy_perm (idx : List Nat) (hs row : List String)
    (hlen : row.length = hs.length) (hidx : idx.Perm (List.range hs.length)) :
    ((permuteBy idx hs).zip (permuteBy idx row)).Perm (hs.zip row) := by
  rw [zip_eq_map_range hs row hlen]
  simp only [permuteBy, List.zip_map']
  exact hidx.map _

theorem GoMap.get_eq_some_iff (m : GoMap) (hnd : (m.map Prod.fst).Nodup) (k v : String) :
    GoMap.get m k = some v ↔ (k, v) ∈ m := by
  induction m with
  | nil => simp [GoMap.get]
  | cons e rest ih =>
    obtain ⟨k0, v0⟩ := e
    simp only [List.map_cons, List.nodup_cons] at hnd
    obtain ⟨hk0, hrest⟩ := hnd
    simp only [GoMap.get, List.mem_cons, Prod.mk.injEq]
    by_cases hk : k0 = k
    · subst hk
      simp only [if_true, Option.some.injEq, true_and]
      constructor
      · intro h; exact Or.inl h.symm
      · rintro (h | h)
        · exact h.symm
        · exact absurd (List.mem_map_of_mem Prod.fst h) hk0
    · simp only [hk, if_false, ih hrest]
      constructor
      · intro h; exact Or.inr h
      · rintro (h | h)
        · exact absurd h.1.symm hk
        · exact h

/-- Two maps with the same entries in another order answer every lookup
alike. -/
theorem GoMap.get_eq_of_perm {m m2 : GoMap} (hp : m2.Perm m) (hnd : (m.map Prod.fst).Nodup)
    (key : String) : GoMap.get m2 key = GoMap.get m key := by
  have hnd2 : (m2.map Prod.fst).Nodup := (hp.map Prod.fst).nodup_iff.mpr hnd
  apply Option.ext
  intro v
  rw [Option.mem_def, Option.mem_def, GoMap.get_eq_some_iff m2 hnd2,
    GoMap.get_eq_some_iff m hnd]
  exact hp.mem_iff

theorem GoMap.get_zip (hs row : List String) (hnd : hs.Nodup) (hlen : row.length = hs.length)
    (i : Nat) (hi : i < hs.length) : GoMap.get (hs.zip row) (hs.getD i "") = row[i]? := by
  have hir : i < row.length := by omega
  have hkeys : ((hs.zip row).map Prod.fst).Nodup := by
    rw [List.map_fst_zip hs row (by omega)]; exact hnd
  have hz : i < (hs.zip row).length := by simp [List.length_zip]; omega
  rw [List.getElem?_eq_getElem hir, GoMap.get_eq_some_iff _ hkeys]
  apply List.mem_iff_getElem.mpr
  refine ⟨i, hz, ?_⟩
  rw [List.getElem_zip]
  simp [List.getD_eq_getElem?_getD, List.getElem?_eq_getElem hi]

/-- C14. For distinct header names and rows that each have as many fields as
there are headers, `Records.ToMaps` returns (it does not panic) one mapping per
row, in row order; the keys of each mapping are exactly the header names, and
its value at the `i`-th header is the `i`-th field of the row.  Rearranging the
columns, the same way in the headers and in every row, gives mappings that
answer every lookup as the original ones do. -/
theorem ToMaps_distinct_headers (records : Records) (hs : List String) (hnd : hs.Nodup)
    (hlen : ∀ row ∈ Records.rows records, row.length = hs.length) :
    ∃ maps, Records.ToMaps records (some hs) = some maps ∧
      List.Forall₂
        (fun row m => m.map Prod.fst = hs ∧
          ∀ i, i < hs.length → GoMap.get m (hs.getD i "") = row[i]?)
        (Records.rows records) maps ∧
      ∀ idx : List Nat, idx.Perm (List.range hs.length) →
        ∃ maps2,
          Records.ToMaps (some ((Records.rows records).map (permuteBy idx)))
            (some (permuteBy idx hs)) = some maps2 ∧
          List.Forall₂ (fun m m2 => ∀ key, GoMap.get m2 key = GoMap.get m key) maps maps2 := by
  refine ⟨(Records.rows records).map (fun row => hs.zip row), ?_, ?_, ?_⟩
  · have h := toMapsLoop_nodup hs hnd (Records.rows records) [] hlen
    simpa [Records.ToMaps] using h
  · rw [List.forall₂_map_right_iff, List.forall₂_same]
    intro row hrow
    have hr := hlen row hrow
    exact ⟨List.map_fst_zip hs row (by omega), fun i hi => GoMap.get_zip hs row hnd hr i hi⟩
  · intro idx hidx
    have hp : (permuteBy idx hs).Perm hs := permuteBy_perm idx hs hidx
    have hnd2 : (permuteBy idx hs).Nodup := hp.nodup_iff.mpr hnd
    have hlen2 : ∀ row ∈ (Records.rows records).map (permuteBy idx),
        row.length = (permuteBy idx hs).length := by
      intro row hrow
      obtain ⟨r0, _, rfl⟩ := List.mem_map.mp hrow
      simp [permuteBy]
    refine ⟨((Records.rows records).map (permuteBy idx)).map
      (fun row => (permuteBy idx hs).zip row), ?_, ?_⟩
    · have h := toMapsLoop_nodup (permuteBy idx hs) hnd2 _ [] hlen2
      simpa [Records.ToMaps, Records.rows] using h
    · rw [List.map_map, List.forall₂_map_left_iff, List.forall₂_map_right_iff,
        List.forall₂_same]
      intro row hrow key
      have hr := hlen row hrow
      have hkeys : ((hs.zip row).map Prod.fst).Nodup := by
        rw [List.map_fst_zip hs row (by omega)]; exact hnd
      exact GoMap.get_eq_of_perm (zip_permuteBy_perm idx hs row hr hidx) hkeys key

/-- Witness of C14: two rows under the headers `id`, `name`, and the two
columns swapped. -/
theorem ToMaps_distinct_headers_witness :
    Records.ToMaps (some [["1", "Alice"], ["2", "Bob"]]) (some ["id", "name"]) =
        some [[("id", "1"), ("name", "Alice")], [("id", "2"), ("name", "Bob")]] ∧
      Records.ToMaps (some [["Alice", "1"], ["Bob", "2"]]) (some ["name", "id"]) =
        some [[("name", "Alice"), ("id", "1")], [("name", "Bob"), ("id", "2")]] ∧
      ∃ maps, Records.ToMaps (some [["1", "Alice"], ["2", "Bob"]]) (some ["id", "name"]) =
          some maps ∧
        List.Forall₂
          (fun row m => m.map Prod.fst = ["id", "name"] ∧
            ∀ i, i < (["id", "name"] : List String).length →
              GoMap.get m ((["id", "name"] : List String).getD i "") = row[i]?)
          (Records.rows (some [["1", "Alice"], ["2", "Bob"]])) maps ∧
        ∀ idx : List Nat, idx.Perm (List.range (["id", "name"] : List String).length) →
          ∃ maps2,
            Records.ToMaps
              (some ((Records.rows (some [["1", "Alice"], ["2", "Bob"]])).map (permuteBy idx)))
              (some (permuteBy idx ["id", "name"])) = some maps2 ∧
            List.Forall₂ (fun m m2 => ∀ key, GoMap.get m2 key = GoMap.get m key) maps maps2 :=
  ⟨rfl, rfl,
   ToMaps_distinct_headers (some [["1", "Alice"], ["2", "Bob"]]) ["id", "name"] (by decide)
     (by decide)⟩

/-! ## Decoding into `[]models.User` -/

theorem insertByKey_perm (e : String × String) (l : GoMap) :
    (insertByKey e l).Perm (e :: l) := by
  induction l with
  | nil => exact List.Perm.refl _
  | cons f rest ih =>
    simp only [insertByKey]
    split
    · exact List.Perm.refl _
    · exact (List.Perm.cons f ih).trans (List.Perm.swap e f rest)

theorem jsonKeyOrder_perm (m : GoMap) : (jsonKeyOrder m).Perm m := by
  induction m with
  | nil => exact List.Perm.refl _
  | cons e rest ih =>
    simp only [jsonKeyOrder, List.foldr_cons]
    exact (insertByKey_perm e _).trans (List.Perm.cons e ih)

/-- When one entry only is bound to the field, the field takes its value. -/
theorem lastMatch_of_filter {name h v : String} {m : GoMap}
    (hf : m.filter (fun e => keyMatches name e.1) = [(h, v)]) :
    lastMatch name (jsonKeyOrder m) = some v := by
  have hp := (jsonKeyOrder_perm m).filter (fun e => keyMatches name e.1)
  rw [hf, List.perm_singleton] at hp
  simp [lastMatch, hp]

theorem GoMap.set_filter_of_not (p : String → Bool) (m : GoMap) (h v : String)
    (hp : p h = false) :
    (GoMap.set m h v).filter (fun e => p e.1) = m.filter (fun e => p e.1) := by
  induction m with
  | nil => simp [GoMap.set, hp]
  | cons e rest ih =>
    obtain ⟨k, w⟩ := e
    simp only [GoMap.set]
    by_cases hk : k = h
    · subst hk
      simp [hp]
    · simp only [hk, if_false, List.filter_cons, ih]

theorem GoMap.set_keys (m : GoMap) (h v k : String) :
    k ∈ (GoMap.set m h v).map Prod.fst ↔ (k = h ∨ k ∈ m.map Prod.fst) := by
  induction m with
  | nil => simp [GoMap.set]
  | cons e rest ih =>
    obtain ⟨k0, w⟩ := e
    simp only [GoMap.set]
    by_cases hk : k0 = h
    · subst hk
      simp
    · simp only [hk, if_false, List.map_cons, List.mem_cons, ih]
      tauto

/-- The keys of the map the inner loop of `ToMaps` returns are the keys it
started with and the headers. -/
theorem fillMap_keys (record : List String) :
    ∀ (hs : List String) (i : Nat) (m m2 : GoMap), fillMap record hs i m = some m2 →
      ∀ k, k ∈ m2.map Prod.fst ↔ (k ∈ m.map Prod.fst ∨ k ∈ hs) := by
  intro hs
  induction hs with
  | nil =>
    intro i m m2 h k
    simp only [fillMap, Option.some.injEq] at h
    subst h
    simp
  | cons h0 hs ih =>
    intro i m m2 h k
    rw [fillMap] at h
    cases hr : record[i]? with
    | none => simp [hr] at h
    | some v =>
      simp only [hr] at h
      rw [ih (i + 1) _ m2 h k, GoMap.set_keys, List.mem_cons]
      tauto

theorem fillMap_filter_none (p : String → Bool) (record : List String) :
    ∀ (hs : List String) (i : Nat) (m m2 : GoMap), (∀ h ∈ hs, p h = false) →
      fillMap record hs i m = some m2 →
      m2.filter (fun e => p e.1) = m.filter (fun e => p e.1) := by
  intro hs
  induction hs with
  | nil =>
    intro i m m2 _ h
    simp only [fillMap, Option.some.injEq] at h
    rw [h]
  | cons h0 hs ih =>
    intro i m m2 hall h
    rw [fillMap] at h
    cases hr : record[i]? with
    | none => simp [hr] at h
    | some v =>
      simp only [hr] at h
      rw [ih (i + 1) _ m2 (fun x hx => hall x (List.mem_cons_of_mem _ hx)) h,
        GoMap.set_filter_of_not p m h0 v (hall h0 (List.mem_cons_self _ _))]

/-- When one header only is bound to a field, the map the inner loop of
`ToMaps` returns has one entry bound to it, and its value is the field of the
record in that column. -/
theorem fillMap_filter_sole (name : String) (record : List String) :
    ∀ (hs : List String) (i j : Nat) (m m2 : GoMap), soleColumn hs name = some j →
      m.filter (fun e => keyMatches name e.1) = [] →
      fillMap record hs i m = some m2 →
      ∃ h, m2.filter (fun e => keyMatches name e.1) = [(h, record.getD (i + j) "")] := by
  intro hs
  induction hs with
  | nil => intro i j m m2 hsole; simp [soleColumn] at hsole
  | cons h0 hs ih =>
    intro i j m m2 hsole hm h
    rw [fillMap] at h
    cases hr : record[i]? with
    | none => simp [hr] at h
    | some v =>
      simp only [hr] at h
      rw [soleColumn] at hsole
      by_cases hmatch : keyMatches name h0 = true
      · simp only [hmatch, if_true] at hsole
        split at hsole
        · rename_i hall
          simp only [Option.some.injEq] at hsole
          subst hsole
          have hnone : ∀ x ∈ hs, keyMatches name x = false := by
            intro x hx
            have := List.all_eq_true.mp hall x hx
            simpa using this
          have hkey : ∀ e ∈ m, e.1 ≠ h0 := by
            intro e he heq
            have : e ∈ m.filter (fun e => keyMatches name e.1) :=
              List.mem_filter.mpr ⟨he, by rw [heq]; exact hmatch⟩
            rw [hm] at this
            exact absurd this (List.not_mem_nil _)
          rw [GoMap.set_of_not_mem m h0 v hkey] at h
          refine ⟨h0, ?_⟩
          rw [fillMap_filter_none (keyMatches name) record hs (i + 1) _ m2 hnone h,
            List.filter_append, hm]
          simp [hmatch, List.getD_eq_getElem?_getD, hr]
        · simp at hsole
      · have hfalse : keyMatches name h0 = false := by simpa using hmatch
        simp only [hfalse, Bool.false_eq_true, if_false, Option.map_eq_some'] at hsole
        obtain ⟨j2, hj2, rfl⟩ := hsole
        have hm2 : (GoMap.set m h0 v).filter (fun e => keyMatches name e.1) = [] := by
          rw [GoMap.set_filter_of_not (keyMatches name) m h0 v hfalse, hm]
        obtain ⟨hh, hres⟩ := ih (i + 1) j2 _ m2 hj2 hm2 h
        exact ⟨hh, by rw [hres]; congr 3; omega⟩

theorem toMapsLoop_spec (hs : List String) :
    ∀ (rows : List (List String)) (acc out : List GoMap), toMapsLoop hs rows acc = some out →
      ∃ ms, out = acc ++ ms ∧
        List.Forall₂ (fun row m => fillMap row hs 0 [] = some m) rows ms := by
  intro rows
  induction rows with
  | nil =>
    intro acc out h
    simp only [toMapsLoop, Option.some.injEq] at h
    exact ⟨[], by simp [h], List.Forall₂.nil⟩
  | cons row rest ih =>
    intro acc out h
    rw [toMapsLoop] at h
    cases hf : fillMap row hs 0 [] with
    | none => simp [hf] at h
    | some m =>
      simp only [hf] at h
      obtain ⟨ms, h1, h2⟩ := ih _ _ h
      exact ⟨m :: ms, by simp [h1], List.Forall₂.cons hf h2⟩

theorem Records.extend_some (rows x : List (List String)) :
    Records.extend (some x) rows = some (x ++ rows) := by
  induction rows generalizing x with
  | nil => simp [Records.extend]
  | cons r rest ih =>
    have h := ih (x ++ [r])
    simp only [Records.extend, List.foldl_cons] at h ⊢
    simpa [Records.append, Records.rows] using h

theorem Records.extend_none_cons (r : List String) (rest : List (List String)) :
    Records.extend none (r :: rest) = some (r :: rest) := by
  have h := Records.extend_some rest [r]
  simpa [Records.extend, Records.append, Records.rows] using h

/-- The entry test `hasIDKey` only looks at the keys, which are the headers. -/
theorem hasIDKey_of_fillMap {record hs : List String} {m : GoMap}
    (h : fillMap record hs 0 [] = some m) :
    hasIDKey m = hs.any (fun x => keyMatches "id" x) := by
  have hk := fillMap_keys record hs 0 [] m h
  rw [Bool.eq_iff_iff]
  simp only [hasIDKey, List.any_eq_true]
  constructor
  · rintro ⟨e, he, hm⟩
    have : e.1 ∈ hs := by
      have := (hk e.1).mp (List.mem_map_of_mem Prod.fst he)
      simpa using this
    exact ⟨e.1, this, hm⟩
  · rintro ⟨x, hx, hm⟩
    obtain ⟨e, he, rfl⟩ := List.mem_map.mp ((hk x).mpr (Or.inr hx))
    exact ⟨e, he, hm⟩

theorem decodeUser_of_fillMap {record hs : List String} {m : GoMap}
    (h : fillMap record hs 0 [] = some m) : DecodedFrom hs record (decodeUser m) := by
  have key : ∀ name j, soleColumn hs name = some j →
      (lastMatch name (jsonKeyOrder m)).getD "" = record.getD j "" := by
    intro name j hj
    obtain ⟨hh, hres⟩ := fillMap_filter_sole name record hs 0 j [] m hj rfl h
    rw [lastMatch_of_filter hres]
    simp
  exact ⟨rfl, key "name", key "phone_number", key "email", key "country"⟩

theorem any_of_forall₂ {α β : Type} (f : β → Bool) (c : Bool) {l : List α} {ms : List β}
    (h : List.Forall₂ (fun _ m => f m = c) l ms) (hne : l ≠ []) : ms.any f = c := by
  induction h with
  | nil => exact absurd rfl hne
  | cons hx hrest ih =>
    rename_i a m l2 ms2
    cases l2 with
    | nil =>
      cases hrest
      simp [hx]
    | cons a2 l3 =>
      have := ih (by simp)
      simp only [List.any_cons, hx, this, Bool.or_self]

/-- Decoding a non-nil, non-empty batch whose rows have as many fields as there
are headers into `[]models.User`. -/
theorem Records.Unmarshal_users (rows : List (List String)) (hs : List String)
    (data : List User) (hne : rows ≠ [])
    (hall : ∀ row ∈ rows, row.length = hs.length) :
    ∃ users, Records.Unmarshal userTarget (some rows) (some hs) data =
        some (users, if hs.any (fun x => keyMatches "id" x) then
          some (.json userIDTypeError) else none) ∧
      List.Forall₂ (DecodedFrom hs) rows users := by
  obtain ⟨out, hout⟩ := toMapsLoop_isSome hs rows []
    (fun r hr => Nat.le_of_eq (hall r hr).symm)
  obtain ⟨ms, h1, h2⟩ := toMapsLoop_spec hs rows [] out hout
  simp only [List.nil_append] at h1
  subst h1
  have hmaps : Records.ToMaps (some rows) (some hs) = some out := by
    simpa [Records.ToMaps, Records.rows] using hout
  have hany : out.any hasIDKey = hs.any (fun x => keyMatches "id" x) :=
    any_of_forall₂ hasIDKey _ (h2.imp (fun _ _ h => hasIDKey_of_fillMap h)) hne
  refine ⟨out.map decodeUser, ?_, ?_⟩
  · unfold Records.Unmarshal
    simp only [hmaps, userTarget, hany]
    cases hs.any (fun x => keyMatches "id" x) <;> simp
  · rw [List.forall₂_map_right_iff]
    exact h2.imp (fun _ _ h => decodeUser_of_fillMap h)

/-- C15, as amended. A `ParseNextBatch` call that decodes a non-empty batch
into a nil `[]models.User` (headers set, pending records well formed with as
many fields as there are headers, batch size at least 1) returns; it returns the
decode error of `json.Unmarshal` exactly when a header is bound to the numeric
field `ID` (the column `id`), whatever the text in that column, a decimal
number included, because every value is encoded as a JSON string.  In both
cases one `User` per row is written, with `ID` zero and with each string field
that one header only is bound to holding the text of that column unchanged. -/
theorem ParseNextBatch_users {k : Nat} (hk : 0 < k) (pending : List RawRow) (hs : List String)
    (hlen : hs.length = k) (b : Int) (hb : 1 ≤ b) (e : Bool) (raw : Option String)
    (fi : FileInfo) (hu : Uniform k pending) (hne : pending ≠ []) :
    ∃ users,
      CommonCSV.ParseNextBatch userTarget ⟨some ⟨k, pending⟩, some hs, b, e, raw, fi⟩ [] =
        some (⟨some ⟨k, pending.drop b.toNat⟩, some hs, b,
                e || decide (pending.length < b.toNat), raw, fi⟩,
              users,
              if hs.any (fun x => keyMatches "id" x) then some (.json userIDTypeError)
              else none) ∧
      List.Forall₂ (fun row u => DecodedFrom hs row.record u) (pending.take b.toNat) users := by
  have hn : 1 ≤ b.toNat := by omega
  obtain ⟨row0, rest0, hp⟩ : ∃ row0 rest0, pending = row0 :: rest0 := by
    cases pending with
    | nil => exact absurd rfl hne
    | cons a l => exact ⟨a, l, rfl⟩
  obtain ⟨n, hn2⟩ : ∃ n, b.toNat = n + 1 := ⟨b.toNat - 1, by omega⟩
  have hrows : (pending.take b.toNat).map RawRow.record =
      row0.record :: (rest0.take n).map RawRow.record := by
    rw [hp, hn2]; simp
  have hall : ∀ row ∈ (pending.take b.toNat).map RawRow.record, row.length = hs.length := by
    intro row hrow
    obtain ⟨raw0, hmem, rfl⟩ := List.mem_map.mp hrow
    rw [(hu raw0 (List.mem_of_mem_take hmem)).2, hlen]
  obtain ⟨users, hU, hdec⟩ := Records.Unmarshal_users _ hs []
    (by rw [hrows]; exact List.cons_ne_nil _ _) hall
  refine ⟨users, ?_, (List.forall₂_map_left_iff).mp hdec⟩
  have hext : Records.extend none ((pending.take b.toNat).map RawRow.record) =
      some ((pending.take b.toNat).map RawRow.record) := by
    rw [hrows]; exact Records.extend_none_cons _ _
  have hP : CommonCSV.ParseHeaders ⟨some ⟨k, pending⟩, some hs, b, e, raw, fi⟩ =
      some (⟨some ⟨k, pending⟩, some hs, b, e, raw, fi⟩, some hs, none) := rfl
  unfold CommonCSV.ParseNextBatch
  rw [hP]
  simp only
  rw [CommonCSV.ReadNextBatch_of_headers, CommonCSV.readLoop_uniform b.toNat hk pending none
    (some hs) b e raw fi hu]
  simp only [hext, hU]

/-- Witness of C15 as amended: the two-row source, headers stored, batch size
1. -/
theorem ParseNextBatch_users_witness :
    ∃ users,
      (sampleReaderAt 1 0 false).ParseNextBatch userTarget [] =
        some (sampleReaderAt 1 1 false, users, some (.json userIDTypeError)) ∧
      List.Forall₂ (fun row u => DecodedFrom ["id", "name"] row.record u)
        [RawRow.ok "1" ["Alice"]] users :=
  ParseNextBatch_users (by decide) [.ok "1" ["Alice"], .ok "2" ["Bob"]] ["id", "name"] rfl 1
    (by decide) false (some sampleCSV) ⟨"", ""⟩ (by decide) (by decide)

/-- Counterexample to C15: over the two-row source the column `id` holds the
decimal numbers 1 and 2, which a `uint64` can hold, and `ParseNextBatch` into
`[]models.User` still returns the decode error and leaves `ID` zero; the name
is decoded. -/
theorem ParseNextBatch_users_decimal_id_fails :
    (freshReader 2 sampleCSV).ParseNextBatch userTarget [] =
      some (sampleReaderAt 2 2 false,
        [⟨0, "Alice", "", "", ""⟩, ⟨0, "Bob", "", "", ""⟩],
        some (.json userIDTypeError)) :=
  rfl

/-! ## The headers under `ReuseRecord` -/

namespace Shared

end Shared

/-! ## Reads made by the lazy header statement -/

/-- C5, the code at a failing input: on a fresh reader over a source whose
header row is malformed, the first row read of the `ReadNextBatch` call, made
by its lazy `ParseHeaders`, fails with a quoting error; the call does not stop
there and returns no error: it returns the two rows read after the failure. -/
theorem ReadNextBatch_goes_on_after_failed_read :
    (CsvReader.Read (NewReader quotedHeaderRowsCSV)).2.2 = some .malformed ∧
      (freshReader 5 quotedHeaderRowsCSV).lazyHeaders =
        some ⟨some ⟨0, [.ok "1" ["Alice"], .ok "2" ["Bob"]]⟩, none, 5, false,
          some quotedHeaderRowsCSV, ⟨"", ""⟩⟩ ∧
      (freshReader 5 quotedHeaderRowsCSV).ReadNextBatch =
        some (⟨some ⟨2, []⟩, none, 5, true, some quotedHeaderRowsCSV, ⟨"", ""⟩⟩,
          some [["1", "Alice"], ["2", "Bob"]], none) :=
  ⟨rfl, rfl, rfl⟩

/-- Counterexample to C19: with batch size 0 over a source whose header row is
malformed, the first `ReadNextBatch` call reads (and fails on) the header row;
the second call, the headers being still unset, reads the data row `1,Alice`
and stores it as the headers. -/
theorem ReadNextBatch_zero_batch_reads_data_row :
    (freshReader 0 quotedHeaderCSV).ReadNextBatch =
        some (⟨some ⟨0, [.ok "1" ["Alice"]]⟩, none, 0, false, some quotedHeaderCSV, ⟨"", ""⟩⟩,
          none, none) ∧
      CommonCSV.ReadNextBatch
          ⟨some ⟨0, [.ok "1" ["Alice"]]⟩, none, 0, false, some quotedHeaderCSV, ⟨"", ""⟩⟩ =
        some (⟨some ⟨2, []⟩, some ["1", "Alice"], 0, false, some quotedHeaderCSV, ⟨"", ""⟩⟩,
          none, none) ∧
      CommonCSV.unread
          ⟨some ⟨0, [.ok "1" ["Alice"]]⟩, none, 0, false, some quotedHeaderCSV, ⟨"", ""⟩⟩ =
        [.ok "1" ["Alice"]] ∧
      CommonCSV.unread
          ⟨some ⟨2, []⟩, some ["1", "Alice"], 0, false, some quotedHeaderCSV, ⟨"", ""⟩⟩ = [] :=
  ⟨rfl, rfl, rfl, rfl⟩

end CsvParser

